import Mathlib

/-!
# Verification of the ASF-B*-tree placement engine (`ASFBStarTree.cpp`)

A shallow embedding of the ASF-B*-tree placement engine: the packer with its
contour (skyline) structure, the compaction pass, the symmetry-axis
computation, the symmetric projector, the symmetry validator, `pack()`, and
the initial tree builder.

Conventions of the embedding:

* C++ `int` is modelled as `Int`.
* C++ `double` quantities (module centers, the symmetry axis, axis terms and
  residuals) are all integer multiples of `1/4`: centers are
  `integer + width/2`, axis terms are `(center + width/2)/2`.  Doubles
  represent such quarter-integers exactly, and every operation the source
  performs on them (`+`, `-`, `*2`, exact `/2`, `max`, `abs`, `round`) is
  exact on them, so the embedding represents each double value `q` by the
  integer `4*q`.  Names of such quantities carry the suffix `4`.
* The C++ module table `std::map<std::string, std::shared_ptr<Module>>` is
  modelled as a total function `Name → Module` together with the list of keys
  `moduleNames`; `representativeModules` is modelled by its key list `reps`
  (iteration in key order), `repToPairMap` by an association list, and
  `selfSymmetricModules` by a list.
* The intrusive linked list of `ContourPoint`s is a `List (Int × Int)` of
  `(x, height)` pairs.
* `std::sort` (which is unstable, with unspecified tie order) is modelled by
  the stable `List.insertionSort`; this fixes one admissible execution.
-/

namespace ASF

abbrev Name := String

/-- A module record: integer `width`, `height`, mutable position `(x, y)` and
the `rotated` flag, as described by the data model. -/
structure Module where
  width : Int
  height : Int
  x : Int
  y : Int
  rotated : Bool
deriving DecidableEq

/-- `BStarNode`: binary tree over representative module names.  The C++ raw
pointer structure is modelled as an inductive tree (null pointer = `nil`). -/
inductive BTree where
  | nil : BTree
  | node (name : Name) (left right : BTree) : BTree
deriving DecidableEq

namespace BTree

/-- Number of nodes of a tree. -/
def size : BTree → Nat
  | nil => 0
  | node _ l r => 1 + l.size + r.size

/-- All module names stored in a tree. -/
def names : BTree → List Name
  | nil => []
  | node n l r => n :: (l.names ++ r.names)

/-- Names on the rightmost branch: the chain reached by repeatedly following
`right` from the root. -/
def rightmostNames : BTree → List Name
  | nil => []
  | node n _ r => n :: r.rightmostNames

/-- Names on the leftmost branch: the chain reached by repeatedly following
`left` from the root. -/
def leftmostNames : BTree → List Name
  | nil => []
  | node n l _ => n :: l.leftmostNames

/-- The names strictly below the root. -/
def childNames : BTree → List Name
  | nil => []
  | node _ l r => l.names ++ r.names

end BTree

/-- Equality of the position components of two module records. -/
def posEq (a b : Module) : Prop := a.x = b.x ∧ a.y = b.y

/-- Equality of the dimension components of two module records. -/
def dimsEq (a b : Module) : Prop := a.width = b.width ∧ a.height = b.height

/-- The engine state: the module table, the group structure
(`representativeModules` key list, `repToPairMap`, `selfSymmetricModules`,
the group type), the stored symmetry axis (in quarter units) and the tree.
The contour is not part of the state: it is rebuilt inside each pack call and
does not survive across calls. -/
structure EngineState where
  moduleNames : List Name
  mods : Name → Module
  reps : List Name
  repToPair : List (Name × Name)
  selfSyms : List Name
  vertical : Bool
  axis4 : Int
  tree : BTree

/-- `Module::setPosition(int, int)`. -/
def setPos (m : Module) (x y : Int) : Module :=
  { m with x := x, y := y }

/-- `Module::rotate()`: rotation swaps width and height (and flips the flag).
Modelled from the spec: `Module.hpp` is not under `src/`; §3 states
"Rotation swaps width and height" with a boolean `rotated`. -/
def rotateM (m : Module) : Module :=
  { m with width := m.height, height := m.width, rotated := !m.rotated }

/-- Point update of the module table. -/
def updMod (mods : Name → Module) (n : Name) (m : Module) : Name → Module :=
  fun k => if k = n then m else mods k

/-! ## Contour (skyline) -/

/-- The contour: `(x, height)` pairs, left to right. -/
abbrev Contour := List (Int × Int)

/-- Intermediate sweep of `updateContour`: process or remove points strictly
left of `right`; a point whose height is `≤ top` is deleted, a higher point
is kept (and becomes the new `prev`).  Returns the kept points, the height of
the final `prev`, and the remaining list. -/
def sweep (right top prevH : Int) : Contour → Contour × Int × Contour
  | [] => ([], prevH, [])
  | p :: rest =>
    if p.1 < right then
      if p.2 ≤ top then sweep right top prevH rest
      else
        let sw := sweep right top p.2 rest
        (p :: sw.1, sw.2.1, sw.2.2)
    else ([], prevH, p :: rest)

/-- Right-edge handling of `updateContour`: add a point at `right` carrying
the final `prev` height, or raise an existing point at `right`. -/
def rightEdgePart (right prevH : Int) : Contour → Contour
  | [] => [(right, prevH)]
  | q :: t2 =>
    if q.1 > right then (right, prevH) :: q :: t2
    else (right, max q.2 prevH) :: t2

/-- The handling of the point at `x` in `updateContour`: insert a fresh
point `(x, top)` when no point sits at `x` (the following points are left
for the sweep), or raise the existing point at `x` to `max(existing, top)`
(its tail is left for the sweep).  Returns the point at `x`, the height of
the `prev` cursor after this phase, and the list still to be swept. -/
def atXStep (x top : Int) : Contour → (Int × Int) × Int × Contour
  | [] => ((x, top), top, [])
  | p :: t =>
    if p.1 > x then ((x, top), top, p :: t)
    else ((x, max p.2 top), max p.2 top, t)

/-- `ASFBStarTree::updateContour(x, y, width, height)`: raise the skyline to
cover the rectangle `[x, x+width) × [y, y+height)`, exactly following the
linked-list manipulation of the source (including its treatment of the
right-edge point, whose height is taken from the final `prev` point). -/
def updateContour (x y width height : Int) (c : Contour) : Contour :=
  let right := x + width
  let top := y + height
  match c with
  | [] => [(x, top), (right, 0)]
  | _ :: _ =>
    let pre := c.takeWhile (fun p => p.1 < x)
    let rest := c.dropWhile (fun p => p.1 < x)
    let step1 := atXStep x top rest
    let sw := sweep right top step1.2.1 step1.2.2
    pre ++ step1.1 :: (sw.1 ++ rightEdgePart right sw.2.1 sw.2.2)

/-- Strict ordering of contour points by abscissa. -/
def xLt (p q : Int × Int) : Prop := p.1 < q.1

/-- Modelled from the spec: `getContourHeight` is declared in the header (not
under `src/`); §4.3 specifies `heightAt(x)` as the height of the skyline at
`x`, `0` where the contour is not defined, the contour being piecewise
constant between adjacent points.  So the result is the height of the last
point whose abscissa is `≤ x`. -/
def getContourHeight (c : Contour) (x : Int) : Int :=
  (c.takeWhile (fun p => p.1 ≤ x)).foldl (fun _ p => p.2) 0

/-- `ASFBStarTree::hasContourOverlap(x, y, width, height)`: scans the integer
abscissas of `[x, x+width)` and reports whether the contour exceeds `y`
anywhere there.  (The `height` parameter is unused, as in the source.) -/
def hasContourOverlap (c : Contour) (x y width _height : Int) : Bool :=
  (List.range width.toNat).any (fun i => getContourHeight c (x + i) > y)

/-- Following the spec's words (§4.3) for claim C2: `maxHeightOver(x, width)`,
the maximum height across the half-open interval `[x, x+width)`, `0` if no
contour points intersect it. -/
def maxHeightOver (c : Contour) (x width : Int) : Int :=
  (List.range width.toNat).foldl (fun m i => max m (getContourHeight c (x + i))) 0

/-! ## Packer (`packBStarTree`) -/

/-- One recorded left-child placement of the BFS packing loop: the contour at
the moment the child is placed, the parent's position and width, the child's
dimensions and the committed position. -/
structure LeftPlacement where
  contourBefore : Contour
  parentX : Int
  parentY : Int
  parentW : Int
  childW : Int
  childH : Int
  placedX : Int
  placedY : Int
deriving DecidableEq

/-- The BFS loop of `packBStarTree`, with explicit fuel (one unit per popped
queue entry; `packPlacements` supplies enough for the whole tree).  Each
entry holds a non-nil subtree together with the already-committed position of
its root.  Popping a node places its left child (preferring the parent's `y`
when the contour is not pierced, line 60-92 of the source), then its right
child at `(x, y + h)`, inserting each rectangle into the contour and pushing
the children.  Returns the placements in commit order, the trace of
left-child placements, and the final contour. -/
def bfsRun (dim : Name → Int × Int) :
    Nat → List (BTree × Int × Int) → Contour →
      List (Name × Int × Int) × List LeftPlacement × Contour
  | 0, _, c => ([], [], c)
  | _ + 1, [], c => ([], [], c)
  | fuel + 1, (t, nodeX, nodeY) :: rest, c =>
    match t with
    | .nil => bfsRun dim fuel rest c
    | .node nm l r =>
      let pw := (dim nm).1
      let ph := (dim nm).2
      let (leftPl, leftTr, c1, q1) :=
        match l with
        | .nil => (([] : List (Name × Int × Int)), ([] : List LeftPlacement), c,
                   ([] : List (BTree × Int × Int)))
        | .node lm _ _ =>
          let leftX := nodeX + pw
          let lw := (dim lm).1
          let lh := (dim lm).2
          let leftY :=
            if hasContourOverlap c leftX nodeY lw lh then getContourHeight c leftX
            else nodeY
          ([(lm, leftX, leftY)],
           [⟨c, nodeX, nodeY, pw, lw, lh, leftX, leftY⟩],
           updateContour leftX leftY lw lh c,
           [(l, leftX, leftY)])
      let (rightPl, c2, q2) :=
        match r with
        | .nil => (([] : List (Name × Int × Int)), c1, ([] : List (BTree × Int × Int)))
        | .node rm _ _ =>
          let rightX := nodeX
          let rightY := nodeY + ph
          let rw := (dim rm).1
          let rh := (dim rm).2
          ([(rm, rightX, rightY)], updateContour rightX rightY rw rh c1,
           [(r, rightX, rightY)])
      let res := bfsRun dim fuel (rest ++ q1 ++ q2) c2
      (leftPl ++ rightPl ++ res.1, leftTr ++ res.2.1, res.2.2)

/-- `packBStarTree` up to (and excluding) the final `compactPlacement` call:
clear the contour, place the root at `(0, 0)`, insert its rectangle, and run
the BFS loop. -/
def packPlacements (dim : Name → Int × Int) (t : BTree) :
    List (Name × Int × Int) × List LeftPlacement × Contour :=
  match t with
  | .nil => ([], [], [])
  | .node nm _ _ =>
    let c0 := updateContour 0 0 (dim nm).1 (dim nm).2 []
    let res := bfsRun dim t.size [(t, 0, 0)] c0
    ((nm, 0, 0) :: res.1, res.2.1, res.2.2)

/-- Apply a list of placements to the module table in commit order
(`setPosition` calls). -/
def applyPlacements (mods : Name → Module) (ps : List (Name × Int × Int)) :
    Name → Module :=
  ps.foldl (fun f p => updMod f p.1 (setPos (f p.1) p.2.1 p.2.2)) mods

/-- Dimension view of a module table, as read by the packer. -/
def dimOf (mods : Name → Module) : Name → Int × Int :=
  fun n => ((mods n).width, (mods n).height)

/-- The trace of left-child placements produced by a full `packBStarTree`
BFS on a state (used by claim C2). -/
def packTrace (s : EngineState) : List LeftPlacement :=
  (packPlacements (dimOf s.mods) s.tree).2.1

/-! ## Compaction (`compactPlacement`) -/

/-- Working position map of `compactPlacement`: an association list
`(name, (x, y))` (the C++ `positions` map, keyed by representative names). -/
abbrev PosMap := List (Name × Int × Int)

/-- Position lookup in the working map (`positions[name]`). -/
def lookupPos (pl : PosMap) (n : Name) : Int × Int :=
  match pl.find? (fun p => p.1 = n) with
  | some p => (p.2.1, p.2.2)
  | none => (0, 0)

/-- Overwrite the `x` of one entry of the working map. -/
def setMapX (pl : PosMap) (n : Name) (x : Int) : PosMap :=
  pl.map (fun p => if p.1 = n then (p.1, x, p.2.2) else p)

/-- Overwrite the `y` of one entry of the working map. -/
def setMapY (pl : PosMap) (n : Name) (y : Int) : PosMap :=
  pl.map (fun p => if p.1 = n then (p.1, p.2.1, y) else p)

/-- The minimum of a list of integers (`INT_MAX`-seeded fold of the source;
for a nonempty list this equals the plain minimum, and the empty case is
never consulted by a caller that has anything to shift). -/
def listMinInt : List Int → Int
  | [] => 0
  | h :: t => t.foldl min h

/-- Inner loop of the X-compaction step: against every earlier-visited
module whose y-projection overlaps the current one, cap the leftward shift
so the current module stays to its right (source lines 1236-1252). -/
def maxLeftShiftOf (dims : Name → Int × Int) (pl : PosMap) (done : List Name)
    (cx cy ch : Int) : Int :=
  done.foldl
    (fun acc p =>
      let (px, py) := lookupPos pl p
      let pw := (dims p).1
      let phh := (dims p).2
      let yOverlap := !(py + phh ≤ cy || cy + ch ≤ py)
      if yOverlap then min acc (cx - (px + pw)) else acc)
    cx

/-- X-compaction scan: visit the names sorted by ascending `x`; the first
module is not moved, each later one is shifted left by its maximal safe
shift (applied only when positive). -/
def xCompactGo (dims : Name → Int × Int) : List Name → List Name → PosMap → PosMap
  | _, [], pl => pl
  | done, cur :: todo, pl =>
    let (cx, cy) := lookupPos pl cur
    let ch := (dims cur).2
    let shift := maxLeftShiftOf dims pl done cx cy ch
    let pl' := if shift > 0 then setMapX pl cur (cx - shift) else pl
    xCompactGo dims (done ++ [cur]) todo pl'

/-- Full X-compaction pass: sort by ascending `x` (stable sort modelling one
admissible `std::sort` execution), then scan. -/
def xCompact (dims : Name → Int × Int) (pl : PosMap) : PosMap :=
  let sorted := (pl.map (fun p => p.1)).insertionSort
      (fun a b => (lookupPos pl a).1 ≤ (lookupPos pl b).1)
  match sorted with
  | [] => pl
  | first :: rest => xCompactGo dims [first] rest pl

/-- Inner loop of the Y-compaction step (x-projection overlap gates the
downward shift). -/
def maxDownShiftOf (dims : Name → Int × Int) (pl : PosMap) (done : List Name)
    (cx cy cw : Int) : Int :=
  done.foldl
    (fun acc p =>
      let (px, py) := lookupPos pl p
      let pw := (dims p).1
      let phh := (dims p).2
      let xOverlap := !(px + pw ≤ cx || cx + cw ≤ px)
      if xOverlap then min acc (cy - (py + phh)) else acc)
    cy

/-- Y-compaction scan. -/
def yCompactGo (dims : Name → Int × Int) : List Name → List Name → PosMap → PosMap
  | _, [], pl => pl
  | done, cur :: todo, pl =>
    let (cx, cy) := lookupPos pl cur
    let cw := (dims cur).1
    let shift := maxDownShiftOf dims pl done cx cy cw
    let pl' := if shift > 0 then setMapY pl cur (cy - shift) else pl
    yCompactGo dims (done ++ [cur]) todo pl'

/-- Full Y-compaction pass. -/
def yCompact (dims : Name → Int × Int) (pl : PosMap) : PosMap :=
  let sorted := (pl.map (fun p => p.1)).insertionSort
      (fun a b => (lookupPos pl a).2 ≤ (lookupPos pl b).2)
  match sorted with
  | [] => pl
  | first :: rest => yCompactGo dims [first] rest pl

/-- The position-map part of `compactPlacement`: build the working copy from
the representatives, apply the translation step (note the source's guard
`minX > 0 || minY > 0`), then compact in X then Y for vertical groups and in
Y then X otherwise. -/
def compactCore (vertical : Bool) (dims : Name → Int × Int) (pl0 : PosMap) : PosMap :=
  let minX := listMinInt (pl0.map (fun p => p.2.1))
  let minY := listMinInt (pl0.map (fun p => p.2.2))
  let pl1 :=
    if minX > 0 || minY > 0 then
      pl0.map (fun p => (p.1, p.2.1 - minX, p.2.2 - minY))
    else pl0
  if vertical then yCompact dims (xCompact dims pl1)
  else xCompact dims (yCompact dims pl1)

/-- `ASFBStarTree::compactPlacement()`: copy the representatives' positions
and dimensions into working maps, compact, and write the resulting positions
back into the module table. -/
def compactPlacement (s : EngineState) : EngineState :=
  let dims := dimOf s.mods
  let pl0 : PosMap := s.reps.map (fun n => (n, (s.mods n).x, (s.mods n).y))
  let plF := compactCore s.vertical dims pl0
  { s with mods := plF.foldl (fun f p => updMod f p.1 (setPos (f p.1) p.2.1 p.2.2)) s.mods }

/-- `ASFBStarTree::packBStarTree()`: BFS placement of the representatives
followed by `compactPlacement`. -/
def packBStarTree (s : EngineState) : EngineState :=
  let ps := (packPlacements (dimOf s.mods) s.tree).1
  compactPlacement { s with mods := applyPlacements s.mods ps }

/-! ## Axis calculator (`calculateSymmetryAxisPosition`)

All `double` values here are quarter-integers, represented scaled by 4.
The `std::numeric_limits<double>::min()` seed of the first fold (a positive
subnormal, ≈ 2.2e-308) is modelled as `0`: every right/bottom edge is an
integer, so the two seeds give the same fold result whenever any edge is
positive, and the engine only ever runs this on placements whose maximal
edge is positive (the packer pins the root at the origin).  The `INT_MIN`
and `0` seeds of the pairless branch are modelled by a head-seeded fold and
a `0`-seeded fold respectively. -/

/-- The maximum of a list of integers seeded by its head (`INT_MIN`-seeded
fold of the source; identical for nonempty lists). -/
def listMaxInt : List Int → Int
  | [] => 0
  | h :: t => t.foldl max h

/-- 4× the right edge `x + width` of a module. -/
def rightEdge4 (m : Module) : Int := 4 * (m.x + m.width)

/-- 4× the bottom edge `y + height` of a module. -/
def bottomEdge4 (m : Module) : Int := 4 * (m.y + m.height)

/-- 4× the x-center `x + width/2` of a module. -/
def centerX4 (m : Module) : Int := 4 * m.x + 2 * m.width

/-- 4× the y-center `y + height/2` of a module. -/
def centerY4 (m : Module) : Int := 4 * m.y + 2 * m.height

/-- 4× the per-pair minimal axis `(rep_center_x + sym_width/2) / 2` (vertical
case); the numerator is even, so the division is exact. -/
def pairAxisTermX4 (mods : Name → Module) (p : Name × Name) : Int :=
  (centerX4 (mods p.1) + 2 * (mods p.2).width) / 2

/-- 4× the per-pair minimal axis `(rep_center_y + sym_height/2) / 2`
(horizontal case). -/
def pairAxisTermY4 (mods : Name → Module) (p : Name × Name) : Int :=
  (centerY4 (mods p.1) + 2 * (mods p.2).height) / 2

/-- `ASFBStarTree::calculateSymmetryAxisPosition()`, returning 4× the new
axis.  Vertical with pairs: fold the pair representatives' right edges, then
fold the per-pair minimal axes on top, and add `1.0`.  Vertical without
pairs: `maxX + maxSelfSymWidth/2 + 1` over the representatives /
self-symmetric modules.  Horizontal mirrors in y.  With neither pairs nor
self-symmetric modules no branch assigns, and the stored axis is kept. -/
def calculateSymmetryAxisPosition (s : EngineState) : Int :=
  if s.vertical then
    match s.repToPair with
    | _ :: _ =>
      let maxRepRightEdge4 :=
        s.repToPair.foldl (fun m p => max m (rightEdge4 (s.mods p.1))) 0
      let minAxisPosition4 :=
        s.repToPair.foldl (fun m p => max m (pairAxisTermX4 s.mods p))
          maxRepRightEdge4
      minAxisPosition4 + 4
    | [] =>
      match s.selfSyms with
      | _ :: _ =>
        let maxX := listMaxInt (s.reps.map (fun n => (s.mods n).x + (s.mods n).width))
        let maxSelfSymWidth :=
          s.selfSyms.foldl (fun m n => max m (s.mods n).width) 0
        4 * maxX + 2 * maxSelfSymWidth + 4
      | [] => s.axis4
  else
    match s.repToPair with
    | _ :: _ =>
      let maxRepBottomEdge4 :=
        s.repToPair.foldl (fun m p => max m (bottomEdge4 (s.mods p.1))) 0
      let minAxisPosition4 :=
        s.repToPair.foldl (fun m p => max m (pairAxisTermY4 s.mods p))
          maxRepBottomEdge4
      minAxisPosition4 + 4
    | [] =>
      match s.selfSyms with
      | _ :: _ =>
        let maxY := listMaxInt (s.reps.map (fun n => (s.mods n).y + (s.mods n).height))
        let maxSelfSymHeight :=
          s.selfSyms.foldl (fun m n => max m (s.mods n).height) 0
        4 * maxY + 2 * maxSelfSymHeight + 4
      | [] => s.axis4

/-! ## Symmetric projector (`updateSymmetricModulePositions`) -/

/-- `std::round` on a quarter-integer `q = n/4`: rounds half away from zero.
`roundQ4 n` is the resulting integer. -/
def roundQ4 (n : Int) : Int :=
  if 0 ≤ n then (n + 2) / 4 else -((-n + 2) / 4)

/-- The rotation trigger of the pair loop: dimensions differ but match after
a 90° swap — exactly the condition under which the source rotates the
partner (lines 389-397). -/
def rotationTriggered (mods : Name → Module) (rp : Name × Name) : Bool :=
  ((mods rp.1).width ≠ (mods rp.2).width || (mods rp.1).height ≠ (mods rp.2).height) &&
    ((mods rp.1).width = (mods rp.2).height && (mods rp.1).height = (mods rp.2).width)

/-- One iteration of the symmetry-pair loop: match dimensions (rotating the
partner when the swapped dimensions match), mirror the representative's
center across the axis, round, commit, and propagate the rotation flag when
no rotation was required. -/
def pairStep (vertical : Bool) (axis4 : Int) (mods : Name → Module)
    (rp : Name × Name) : Name → Module :=
  let repM := mods rp.1
  let sym0 := mods rp.2
  let needsRotation := rotationTriggered mods rp
  let sym1 := if needsRotation then rotateM sym0 else sym0
  let sym2 :=
    if vertical then
      let symCenterX4 := 2 * axis4 - centerX4 repM
      let symX4 := symCenterX4 - 2 * sym1.width
      setPos sym1 (roundQ4 symX4) repM.y
    else
      let symCenterY4 := 2 * axis4 - centerY4 repM
      let symY4 := symCenterY4 - 2 * sym1.height
      setPos sym1 repM.x (roundQ4 symY4)
  let sym3 := if needsRotation then sym2 else { sym2 with rotated := repM.rotated }
  updMod mods rp.2 sym3

/-- The self-symmetric x-position computation (vertical case): round
`axisPosition - width/2`, then, if the residual center error exceeds `0.25`,
probe the two adjacent positions and keep whichever strictly reduces it.
Arguments and result in quarter units where fractional, integers where the
source uses `int`. -/
def selfSymX (axis4 : Int) (w : Int) : Int :=
  let exactLeft4 := axis4 - 2 * w
  let moduleX := roundQ4 exactLeft4
  let centerError4 := |4 * moduleX + 2 * w - axis4|
  if centerError4 > 1 then
    let altX1 := moduleX - 1
    let altX2 := moduleX + 1
    let altError1 := |4 * altX1 + 2 * w - axis4|
    let altError2 := |4 * altX2 + 2 * w - axis4|
    if altError1 < centerError4 && altError1 < altError2 then altX1
    else if altError2 < centerError4 then altX2
    else moduleX
  else moduleX

/-- One iteration of the self-symmetric loop: center the module on the axis
along the mirror dimension, leaving the other coordinate unchanged. -/
def selfStep (vertical : Bool) (axis4 : Int) (mods : Name → Module)
    (n : Name) : Name → Module :=
  let m := mods n
  if vertical then updMod mods n (setPos m (selfSymX axis4 m.width) m.y)
  else updMod mods n (setPos m m.x (selfSymX axis4 m.height))

/-- The symmetry-pair loop of `updateSymmetricModulePositions`. -/
def pairsFold (vertical : Bool) (axis4 : Int) (L : List (Name × Name))
    (mods : Name → Module) : Name → Module :=
  L.foldl (fun f p => pairStep vertical axis4 f p) mods

/-- The self-symmetric loop of `updateSymmetricModulePositions`. -/
def selfFold (vertical : Bool) (axis4 : Int) (L : List Name)
    (mods : Name → Module) : Name → Module :=
  L.foldl (fun f n => selfStep vertical axis4 f n) mods

/-- `ASFBStarTree::updateSymmetricModulePositions()`: recompute the axis if
it is negative, then run the pair loop and the self-symmetric loop. -/
def updateSymmetricModulePositions (s : EngineState) : EngineState :=
  let s1 := if s.axis4 < 0 then { s with axis4 := calculateSymmetryAxisPosition s } else s
  let mods2 := pairsFold s1.vertical s1.axis4 s1.repToPair s1.mods
  let mods3 := selfFold s1.vertical s1.axis4 s1.selfSyms mods2
  { s1 with mods := mods3 }

/-! ## Validator (`validateSymmetry`) and `pack` -/

/-- The negative-coordinate sweep at the head of `validateSymmetry`. -/
def noNegativeCoords (s : EngineState) : Bool :=
  s.moduleNames.all (fun n => !((s.mods n).x < 0 || (s.mods n).y < 0))

/-- The per-pair check of `validateSymmetry`: both centers along the mirror
dimension must sum to `2·axis` within `1.0`, and the centers along the other
dimension must agree within `1.0`.  A pair naming a module that is missing
from the table is skipped with a warning. -/
def pairSymOk (s : EngineState) (rp : Name × Name) : Bool :=
  if !(s.moduleNames.contains rp.1) || !(s.moduleNames.contains rp.2) then true
  else
    let repM := s.mods rp.1
    let symM := s.mods rp.2
    if s.vertical then
      |2 * s.axis4 - (centerX4 repM + centerX4 symM)| ≤ 4 &&
        |centerY4 repM - centerY4 symM| ≤ 4
    else
      |2 * s.axis4 - (centerY4 repM + centerY4 symM)| ≤ 4 &&
        |centerX4 repM - centerX4 symM| ≤ 4

/-- The per-self-symmetric check of `validateSymmetry`: the relevant center
must be on the axis within `1.0`. -/
def selfSymOk (s : EngineState) (n : Name) : Bool :=
  if !(s.moduleNames.contains n) then true
  else if s.vertical then |centerX4 (s.mods n) - s.axis4| ≤ 4
  else |centerY4 (s.mods n) - s.axis4| ≤ 4

/-- `ASFBStarTree::validateSymmetry()`. -/
def validateSymmetry (s : EngineState) : Bool :=
  noNegativeCoords s && s.repToPair.all (pairSymOk s) && s.selfSyms.all (selfSymOk s)

/-- `ASFBStarTree::pack()`: pack the representatives (with compaction),
compute the axis, project the symmetric modules, and validate.  The
recomputed traversal vectors have no observable effect and are omitted.
Returns the boolean result together with the final state. -/
def pack (s : EngineState) : Bool × EngineState :=
  let s1 := packBStarTree s
  let s2 := { s1 with axis4 := calculateSymmetryAxisPosition s1 }
  let s3 := updateSymmetricModulePositions s2
  (validateSymmetry s3, s3)

/-! ## Initial tree builder (`buildInitialBStarTree`)

The C++ builder mutates a pointer structure through a `currentNode` cursor.
The embedding represents the cursor as a path from the root (`false` = left
child, `true` = right child) and each `x->left = n` / `x->right = n`
assignment as a graft of a fresh leaf at a path whose addressed slot is
null. -/

namespace BTree

/-- Replace the null slot addressed by a path with a fresh leaf carrying
`nm`.  If the path runs off the tree or addresses an occupied slot, the tree
is unchanged (the C++ assignments only ever target null child slots of live
nodes). -/
def graftAt : BTree → List Bool → Name → BTree
  | nil, [], nm => node nm nil nil
  | nil, _ :: _, _ => nil
  | node m l r, [], _ => node m l r
  | node m l r, false :: p, nm => node m (l.graftAt p nm) r
  | node m l r, true :: p, nm => node m l (r.graftAt p nm)

/-- The subtree addressed by a path (`nil` when the path runs off). -/
def subtreeAt : BTree → List Bool → BTree
  | t, [] => t
  | nil, _ :: _ => nil
  | node _ l _, false :: p => l.subtreeAt p
  | node _ _ r, true :: p => r.subtreeAt p

/-- The right child of a tree's root (`nil` for `nil`). -/
def rightChild : BTree → BTree
  | nil => nil
  | node _ _ r => r

/-- The left child of a tree's root (`nil` for `nil`). -/
def leftChild : BTree → BTree
  | nil => nil
  | node _ l _ => l

/-- The path to the last node of the right spine (the C++
`while (rightmost->right != nullptr)` walk). -/
def rightSpinePath : BTree → List Bool
  | nil => []
  | node _ _ nil => []
  | node _ _ (node m l r) => true :: rightSpinePath (node m l r)

/-- The path to the last node of the left spine. -/
def leftSpinePath : BTree → List Bool
  | nil => []
  | node _ nil _ => []
  | node _ (node m l r) _ => false :: leftSpinePath (node m l r)

/-- The C++ `findOpenRightSlot` closure: check the node itself, then search
the left subtree, then the right subtree, for the first node with a null
right child; returns the path to it. -/
def findOpenRightSlot : BTree → Option (List Bool)
  | nil => none
  | node _ l r =>
    if r = nil then some []
    else
      match findOpenRightSlot l with
      | some p => some (false :: p)
      | none =>
        match findOpenRightSlot r with
        | some p => some (true :: p)
        | none => none

/-- The C++ `findOpenLeftSlot` closure: check the node itself, then search
the right subtree, then the left subtree, for the first node with a null
left child. -/
def findOpenLeftSlot : BTree → Option (List Bool)
  | nil => none
  | node _ l r =>
    if l = nil then some []
    else
      match findOpenLeftSlot r with
      | some p => some (true :: p)
      | none =>
        match findOpenLeftSlot l with
        | some p => some (false :: p)
        | none => none

/-- A chain of right children. -/
def chainRight : List Name → BTree
  | [] => nil
  | n :: t => node n nil (chainRight t)

/-- A chain of left children. -/
def chainLeft : List Name → BTree
  | [] => nil
  | n :: t => node n (chainLeft t) nil

end BTree

/-- One insertion step of the non-self-symmetric loop for VERTICAL groups
(source lines 665-744): index 0 appends at the end of the rightmost branch;
even indices attach as a right child of the cursor, falling back to
`findOpenRightSlot` from the root; odd indices mirror this with left
children.  The state is the tree together with the cursor path. -/
def insertNonSelfV (st : BTree × List Bool) (i : Nat) (nm : Name) :
    BTree × List Bool :=
  let t := st.1
  let cur := st.2
  if i = 0 then
    if t.rightChild = BTree.nil then
      (t.graftAt [true] nm, [true])
    else
      let p := t.rightSpinePath
      (t.graftAt (p ++ [true]) nm, p ++ [true])
  else if i % 2 = 0 then
    if (t.subtreeAt cur).rightChild = BTree.nil then
      (t.graftAt (cur ++ [true]) nm, cur ++ [true])
    else
      match t.findOpenRightSlot with
      | some p => (t.graftAt (p ++ [true]) nm, p ++ [true])
      | none => (t, cur)
  else
    if (t.subtreeAt cur).leftChild = BTree.nil then
      (t.graftAt (cur ++ [false]) nm, cur ++ [false])
    else
      match t.findOpenLeftSlot with
      | some p => (t.graftAt (p ++ [false]) nm, p ++ [false])
      | none => (t, cur)

/-- One insertion step of the non-self-symmetric loop for HORIZONTAL groups
(source lines 748-827): left/right roles are swapped. -/
def insertNonSelfH (st : BTree × List Bool) (i : Nat) (nm : Name) :
    BTree × List Bool :=
  let t := st.1
  let cur := st.2
  if i = 0 then
    if t.leftChild = BTree.nil then
      (t.graftAt [false] nm, [false])
    else
      let p := t.leftSpinePath
      (t.graftAt (p ++ [false]) nm, p ++ [false])
  else if i % 2 = 0 then
    if (t.subtreeAt cur).leftChild = BTree.nil then
      (t.graftAt (cur ++ [false]) nm, cur ++ [false])
    else
      match t.findOpenLeftSlot with
      | some p => (t.graftAt (p ++ [false]) nm, p ++ [false])
      | none => (t, cur)
  else
    if (t.subtreeAt cur).rightChild = BTree.nil then
      (t.graftAt (cur ++ [true]) nm, cur ++ [true])
    else
      match t.findOpenRightSlot with
      | some p => (t.graftAt (p ++ [true]) nm, p ++ [true])
      | none => (t, cur)

/-- The non-self-symmetric representatives, sorted ascending by the minor
dimension relative to the group type (height for VERTICAL, width for
HORIZONTAL). -/
def nonSelfSorted (s : EngineState) : List Name :=
  let nonSelfSym0 := s.reps.filter (fun n => !(s.selfSyms.contains n))
  if s.vertical then
    nonSelfSym0.insertionSort (fun a b => (s.mods a).height ≤ (s.mods b).height)
  else
    nonSelfSym0.insertionSort (fun a b => (s.mods a).width ≤ (s.mods b).width)

/-- `ASFBStarTree::buildInitialBStarTree()`.  With no representatives the
build fails (`EmptyGroup`, spec §7); otherwise: split off the
non-self-symmetric representatives and sort them by the minor dimension,
choose the root (first non-self-symmetric if any, else first
self-symmetric), chain the remaining self-symmetric modules along the
boundary branch (right for VERTICAL, left for HORIZONTAL), then insert the
remaining non-self-symmetric modules with the alternating strategy.
Returns the finished tree. -/
def buildInitialBStarTree (s : EngineState) : Option BTree :=
  match s.reps with
  | [] => none
  | _ :: _ =>
    let rootAndLists : Option (Name × List Name × List Name) :=
      match nonSelfSorted s with
      | rn :: rest => some (rn, rest, s.selfSyms)
      | [] =>
        match s.selfSyms with
        | sn :: rest => some (sn, [], rest)
        | [] => none
    match rootAndLists with
    | none => none
    | some (rootName, nonSelfRest, selfList) =>
      let start : BTree × List Bool :=
        if s.vertical then
          (BTree.node rootName BTree.nil (BTree.chainRight selfList),
           List.replicate selfList.length true)
        else
          (BTree.node rootName (BTree.chainLeft selfList) BTree.nil,
           List.replicate selfList.length false)
      let stepFn := if s.vertical then insertNonSelfV else insertNonSelfH
      let final := nonSelfRest.enum.foldl (fun st p => stepFn st p.1 p.2) start
      some final.1

/-! ## Claim-side definitions

These definitions follow the wording of the specification (not the source);
they are compared against the embedded source functions by the refinement
claims. -/

/-- Interior overlap of two placed rectangles `[x, x+w) × [y, y+h)`. -/
def rectanglesOverlapInterior (a b : Module) : Bool :=
  max a.x b.x < min (a.x + a.width) (b.x + b.width) &&
    max a.y b.y < min (a.y + a.height) (b.y + b.height)

/-- Claim C2's placement rule for a left child, as the claim words it:
`x_L = parent.x + parent.width`, and `y_L = parent.y` when the maximum
contour height over `[x_L, x_L + w_L)` does not exceed `parent.y`, otherwise
that maximum. -/
def claimC2Pred (e : LeftPlacement) : Bool :=
  e.placedX = e.parentX + e.parentW &&
    e.placedY =
      (if maxHeightOver e.contourBefore e.placedX e.childW ≤ e.parentY then
        e.parentY
      else maxHeightOver e.contourBefore e.placedX e.childW)

/-- The placement rule the source actually implements for a left child:
same `x_L`, but the fallback ordinate is the contour height at the single
abscissa `x_L` (`getContourHeight(leftX)`), not the maximum over the
interval. -/
def sourceC2Pred (e : LeftPlacement) : Bool :=
  e.placedX = e.parentX + e.parentW &&
    e.placedY =
      (if hasContourOverlap e.contourBefore e.placedX e.parentY e.childW e.childH then
        getContourHeight e.contourBefore e.placedX
      else e.parentY)

/-- `0`-seeded maximum of a list of integers. -/
def listMax0 (l : List Int) : Int := l.foldl max 0

/-- Claim C4's formula (scaled by 4): `max(A, R) + 1.0` with `A` the maximum
of the per-pair minimal axes and `R` the maximum right edge over *all*
representative modules. -/
def claimC4AxisX4 (s : EngineState) : Int :=
  max (listMax0 (s.repToPair.map (pairAxisTermX4 s.mods)))
      (listMax0 (s.reps.map (fun n => rightEdge4 (s.mods n)))) + 4

/-- The amended C4 formula (scaled by 4): as claimed, but `R` ranges over
the representatives of the symmetry pairs (the keys of `repToPairMap`)
only. -/
def amendedC4AxisX4 (s : EngineState) : Int :=
  max (listMax0 (s.repToPair.map (pairAxisTermX4 s.mods)))
      (listMax0 (s.repToPair.map (fun p => rightEdge4 (s.mods p.1)))) + 4

/-! ## Concrete states used by the counterexamples and witnesses -/

/-- A module with the given dimensions and position, unrotated. -/
def mk (w h x y : Int) : Module := ⟨w, h, x, y, false⟩

/-- The default entry of the (total-function) module table. -/
def defaultMod : Module := ⟨0, 0, 0, 0, false⟩

/-- C1 module table: two 1×1 pair representatives, a 10×1 partner and a 1×1
partner. -/
def c1mods : Name → Module := fun n =>
  if n = "r1" then mk 1 1 0 0
  else if n = "r2" then mk 1 1 0 0
  else if n = "s1" then mk 10 1 0 0
  else if n = "s2" then mk 1 1 0 0
  else defaultMod

/-- C1 state: a VERTICAL group with pairs `(r1, s1)` and `(r2, s2)`; the
tree places `r2` as left child of `r1`. -/
def c1State : EngineState :=
  { moduleNames := ["r1", "r2", "s1", "s2"], mods := c1mods,
    reps := ["r1", "r2"], repToPair := [("r1", "s1"), ("r2", "s2")],
    selfSyms := [], vertical := true, axis4 := -4,
    tree := .node "r1" (.node "r2" .nil .nil) .nil }

/-- C2 module table. -/
def c2mods : Name → Module := fun n =>
  if n = "a" then mk 2 1 0 0
  else if n = "b" then mk 1 1 0 0
  else if n = "c" then mk 1 5 0 0
  else if n = "d" then mk 2 1 0 0
  else if n = "e" then mk 2 1 0 0
  else defaultMod

/-- C2 state: the tree is `a(left: b(left: c), right: d(left: e))`; when `e`
is placed, the contour rises inside `[2, 4)` (height 6 at abscissa 3, height
2 at abscissa 2). -/
def c2State : EngineState :=
  { moduleNames := ["a", "b", "c", "d", "e"], mods := c2mods,
    reps := ["a", "b", "c", "d", "e"], repToPair := [],
    selfSyms := [], vertical := true, axis4 := -4,
    tree := .node "a" (.node "b" (.node "c" .nil .nil) .nil)
                      (.node "d" (.node "e" .nil .nil) .nil) }

/-- C4 module table: the pair representative `r` is 1×1 at the origin, the
self-symmetric representative `c` is 1×1 at `x = 5`. -/
def c4mods : Name → Module := fun n =>
  if n = "r" then mk 1 1 0 0
  else if n = "s" then mk 1 1 0 0
  else if n = "c" then mk 1 1 5 0
  else defaultMod

/-- C4 state: one pair `(r, s)` and one self-symmetric representative `c`
whose right edge (6) dominates every pair representative's right edge (1). -/
def c4State : EngineState :=
  { moduleNames := ["r", "s", "c"], mods := c4mods,
    reps := ["r", "c"], repToPair := [("r", "s")],
    selfSyms := ["c"], vertical := true, axis4 := -4,
    tree := .node "r" .nil (.node "c" .nil .nil) }

/-- C5 witness state: one self-symmetric 6×2 module, axis already set to 4
(`axis4 = 16`). -/
def c5State : EngineState :=
  { moduleNames := ["c"],
    mods := fun n => if n = "c" then mk 6 2 0 0 else defaultMod,
    reps := ["c"], repToPair := [], selfSyms := ["c"],
    vertical := true, axis4 := 16, tree := .node "c" .nil .nil }

/-- C6 witness state: a self-symmetric module `c` and a pair representative
`d` in a VERTICAL group. -/
def c6State : EngineState :=
  { moduleNames := ["c", "d", "d2"],
    mods := fun n =>
      if n = "c" then mk 6 2 0 0
      else if n = "d" then mk 2 2 0 0
      else if n = "d2" then mk 2 2 0 0
      else defaultMod,
    reps := ["c", "d"], repToPair := [("d", "d2")], selfSyms := ["c"],
    vertical := true, axis4 := -4, tree := .nil }

/-- C8 module table: a single representative placed at `(-5, -3)`. -/
def c8mods : Name → Module := fun n =>
  if n = "m" then mk 2 2 (-5) (-3) else defaultMod

/-- C8 state: the working minimum x and y are negative, so the source's
translation guard `minX > 0 || minY > 0` does not fire. -/
def c8State : EngineState :=
  { moduleNames := ["m"], mods := c8mods,
    reps := ["m"], repToPair := [], selfSyms := [],
    vertical := true, axis4 := -4, tree := .node "m" .nil .nil }

/-- C9 module table: representative `r` is 1×10, its partner `s` is 10×1
(matchable only by rotation). -/
def c9mods : Name → Module := fun n =>
  if n = "r" then mk 1 10 0 0
  else if n = "s" then mk 10 1 0 0
  else defaultMod

/-- C9 state: a single-node tree and one pair whose partner must be rotated
on the first pack. -/
def c9State : EngineState :=
  { moduleNames := ["r", "s"], mods := c9mods,
    reps := ["r"], repToPair := [("r", "s")],
    selfSyms := [], vertical := true, axis4 := -4,
    tree := .node "r" .nil .nil }

/-! # Theorems -/

/-! ## Generic list lemmas -/

theorem foldl_max_split (l : List Int) : ∀ a b : Int,
    l.foldl max (max a b) = max a (l.foldl max b) := by
  induction l with
  | nil => intro a b; rfl
  | cons x t ih =>
    intro a b
    show t.foldl max (max (max a b) x) = max a (t.foldl max (max b x))
    rw [max_assoc, ih]

theorem le_foldl_max (l : List Int) : ∀ a : Int, a ≤ l.foldl max a := by
  induction l with
  | nil => intro a; exact le_refl a
  | cons x t ih =>
    intro a
    exact le_trans (le_max_left a x) (ih (max a x))

theorem listMax0_nonneg (l : List Int) : 0 ≤ listMax0 l :=
  le_foldl_max l 0

/-! ## Validator lemmas -/

theorem validateSymmetry_nonneg (s : EngineState) (h : validateSymmetry s = true) :
    ∀ n ∈ s.moduleNames, 0 ≤ (s.mods n).x ∧ 0 ≤ (s.mods n).y := by
  intro n hn
  simp only [validateSymmetry, Bool.and_eq_true, noNegativeCoords,
    List.all_eq_true] at h
  have hne := h.1.1 n hn
  simp only [Bool.not_eq_true', Bool.or_eq_false_iff, decide_eq_false_iff_not,
    not_lt] at hne
  exact hne

/-! ## Claim C3 -/

/-- C3: `pack()` returns `false` whenever any module's final coordinate is
negative; equivalently, `pack() == true` implies that every module in the
table ends with `x ≥ 0` and `y ≥ 0` (the negative-coordinate sweep at the
head of `validateSymmetry` rejects such placements). -/
theorem C3_pack_true_nonneg (s : EngineState) (h : (pack s).1 = true) :
    ∀ n ∈ (pack s).2.moduleNames,
      0 ≤ ((pack s).2.mods n).x ∧ 0 ≤ ((pack s).2.mods n).y := by
  exact validateSymmetry_nonneg (pack s).2 h

/-- Witness for C3 at the concrete state `c1State`. -/
theorem C3_pack_true_nonneg_witness :
    0 ≤ ((pack c1State).2.mods "s2").x ∧ 0 ≤ ((pack c1State).2.mods "s2").y :=
  C3_pack_true_nonneg c1State (by decide) "s2" (by decide)

/-! ## Claim C5: rounding of self-symmetric modules -/

theorem roundQ4_bound (n : Int) : |4 * roundQ4 n - n| ≤ 2 := by
  rw [abs_le]
  unfold roundQ4
  split <;> omega

theorem selfSymX_bound (axis4 w : Int) :
    |4 * selfSymX axis4 w + 2 * w - axis4| ≤ 2 := by
  have hb : |4 * roundQ4 (axis4 - 2 * w) + 2 * w - axis4| ≤ 2 := by
    have := roundQ4_bound (axis4 - 2 * w)
    rw [abs_le] at this ⊢
    omega
  simp only [selfSymX]
  split
  · split
    · next h1 =>
      simp only [Bool.and_eq_true, decide_eq_true_eq] at h1
      exact le_trans (le_of_lt h1.1) hb
    · split
      · next h2 => exact le_trans (le_of_lt h2) hb
      · exact hb
  · exact hb

theorem selfFold_frame (vertical : Bool) (axis4 : Int) :
    ∀ (l : List Name) (f : Name → Module) (k : Name), k ∉ l →
      l.foldl (fun g n => selfStep vertical axis4 g n) f k = f k := by
  intro l
  induction l with
  | nil => intro f k _; rfl
  | cons m t ih =>
    intro f k hk
    have hkm : k ≠ m := fun hkm => hk (hkm ▸ List.mem_cons_self m t)
    have hkt : k ∉ t := fun hkt => hk (List.mem_cons_of_mem m hkt)
    show t.foldl _ (selfStep vertical axis4 f m) k = f k
    rw [ih (selfStep vertical axis4 f m) k hkt]
    simp only [selfStep]
    split <;> simp [updMod, hkm]

theorem selfFold_centered (axis4 : Int) :
    ∀ (l : List Name) (f : Name → Module) (n : Name), n ∈ l →
      |centerX4 ((l.foldl (fun g m => selfStep true axis4 g m) f) n) - axis4| ≤ 2 := by
  intro l
  induction l with
  | nil => intro f n hn; exact absurd hn (List.not_mem_nil n)
  | cons m t ih =>
    intro f n hn
    show |centerX4 ((t.foldl _ (selfStep true axis4 f m)) n) - axis4| ≤ 2
    by_cases hnt : n ∈ t
    · exact ih (selfStep true axis4 f m) n hnt
    · have hnm : n = m := by
        rcases List.mem_cons.mp hn with h | h
        · exact h
        · exact absurd h hnt
      subst hnm
      rw [selfFold_frame true axis4 t (selfStep true axis4 f n) n hnt]
      have hB := selfSymX_bound axis4 (f n).width
      simpa [selfStep, updMod, setPos, centerX4] using hB

/-- C5: after `updateSymmetricModulePositions` runs for a VERTICAL group,
every self-symmetric module's x-center is within `0.5` of the axis: in
quarter units, `|4·x + 2·width − axis4| ≤ 2`.  Rounding
`exact_left = axis − width/2` to the nearest integer, with the `±1` probe
accepted only when it strictly reduces the residual, always leaves a final
center residual of at most `0.5`. -/
theorem C5_selfsym_residual (s : EngineState) (hv : s.vertical = true)
    (n : Name) (hn : n ∈ s.selfSyms) :
    |centerX4 ((updateSymmetricModulePositions s).mods n) -
      (updateSymmetricModulePositions s).axis4| ≤ 2 := by
  unfold updateSymmetricModulePositions
  set s1 := if s.axis4 < 0 then { s with axis4 := calculateSymmetryAxisPosition s } else s with hs1
  have hv1 : s1.vertical = true := by
    rw [hs1]; split <;> exact hv
  have hss : s1.selfSyms = s.selfSyms := by
    rw [hs1]; split <;> rfl
  simp only [hv1]
  exact selfFold_centered s1.axis4 s1.selfSyms _ n (hss ▸ hn)

/-- Witness for C5 at the concrete state `c5State`. -/
theorem C5_selfsym_residual_witness :
    |centerX4 ((updateSymmetricModulePositions c5State).mods "c") -
      (updateSymmetricModulePositions c5State).axis4| ≤ 2 :=
  C5_selfsym_residual c5State rfl "c" (by decide)

/-! ## Claim C4: the axis formula -/

/-- C4 counterexample: at `c4State` (a VERTICAL group with one pair and a
self-symmetric representative placed at `x = 5`), the source computes
`axisPosition = 2` (`axis4 = 8`) while the claimed formula — whose `R`
ranges over *all* representative modules — yields `7` (`axis4 = 28`). -/
theorem C4_counterexample :
    calculateSymmetryAxisPosition c4State ≠ claimC4AxisX4 c4State := by
  decide

/-- C4 as amended: for a VERTICAL group with at least one symmetry pair,
`calculateSymmetryAxisPosition` returns `max(A, R) + 1.0` where `A` is the
maximum over the pairs of `(rep_center_x + sym_width/2)/2` and `R` is the
maximum right edge over the *pair representatives* (the keys of
`repToPairMap`) only — not over all representative modules. -/
theorem foldl_max_map {α : Type} (f : α → Int) (L : List α) : ∀ i : Int,
    L.foldl (fun m q => max m (f q)) i = (L.map f).foldl max i := by
  induction L with
  | nil => intro i; rfl
  | cons x t ih => intro i; simpa using ih (max i (f x))

theorem C4_amended_axis_formula (s : EngineState) (hv : s.vertical = true)
    (hp : s.repToPair ≠ []) :
    calculateSymmetryAxisPosition s = amendedC4AxisX4 s := by
  obtain ⟨p, l, hpl⟩ : ∃ p l, s.repToPair = p :: l := by
    cases hq : s.repToPair with
    | nil => exact absurd hq hp
    | cons p l => exact ⟨p, l, rfl⟩
  unfold calculateSymmetryAxisPosition amendedC4AxisX4
  rw [hv, hpl]
  show (p :: l).foldl (fun m q => max m (pairAxisTermX4 s.mods q))
      ((p :: l).foldl (fun m q => max m (rightEdge4 (s.mods q.1))) 0) + 4 =
    max (listMax0 ((p :: l).map (pairAxisTermX4 s.mods)))
      (listMax0 ((p :: l).map fun q => rightEdge4 (s.mods q.1))) + 4
  rw [foldl_max_map (pairAxisTermX4 s.mods),
    foldl_max_map (fun q : Name × Name => rightEdge4 (s.mods q.1)) (p :: l) 0]
  have key : ∀ T E : List Int,
      T.foldl max (E.foldl max 0) + 4 = max (T.foldl max 0) (E.foldl max 0) + 4 := by
    intro T E
    have h0 : E.foldl max 0 = max (E.foldl max 0) 0 :=
      (max_eq_left (le_foldl_max E 0)).symm
    rw [h0, foldl_max_split, max_comm, ← h0]
  exact key _ _

/-- Witness for the amended C4 at the concrete state `c1State`. -/
theorem C4_amended_axis_formula_witness :
    calculateSymmetryAxisPosition c1State = amendedC4AxisX4 c1State :=
  C4_amended_axis_formula c1State rfl (by decide)

/-! ## Claim C8: the translation step of `compactPlacement` -/

/-- C8: the translation step does *not* normalise negative placements.  At
`c8State` the single representative sits at `(-5, -3)`; the guard
`minX > 0 || minY > 0` is false, no translation happens, and
`compactPlacement` returns the module still at `(-5, -3)` — the minimum x
and y are `-5` and `-3`, not `0` as the claim (and the source's own comment
"Shift all modules to ensure positive coordinates") requires. -/
theorem C8_translation_skips_negative :
    ((compactPlacement c8State).mods "m").x = -5 ∧
      ((compactPlacement c8State).mods "m").y = -3 := by
  decide

/-! ## Claim C1: pack succeeding despite interior overlap -/

/-- C1 counterexample: at `c1State`, `pack()` returns `true` (all validator
checks pass: coordinates are non-negative and both pair residuals are within
`1.0`), yet the two mirrored partners `s1 = [2,12)×[0,1)` and
`s2 = [6,7)×[0,1)` overlap in their interiors — `pack()` performs no overlap
check. -/
theorem C1_counterexample :
    (pack c1State).1 = true ∧
      rectanglesOverlapInterior ((pack c1State).2.mods "s1")
        ((pack c1State).2.mods "s2") = true := by
  decide

/-! ## Claim C2: left-child placement rule -/

/-- C2 counterexample: on `c2State` the BFS trace contains a left-child
placement (child `e` of parent `d`) committed at the contour height at the
single abscissa `x_L` (namely 2) although the maximum contour height over
`[x_L, x_L + w_L)` is 6: the claimed placement rule fails on the trace. -/
theorem C2_counterexample :
    (packTrace c2State).all claimC2Pred = false := by
  decide

/-! ## Claim C9: idempotence of `pack` -/

/-- C9 counterexample: at `c9State` the first `pack()` rotates the partner
`s` (1×10 vs 10×1), which changes the width that the axis computation reads;
the second `pack()` therefore computes a different axis (2 instead of 3.75)
and moves `s` from `x = 7` to `x = 3`, although both calls return `true` and
nothing external mutated the state in between. -/
theorem C9_counterexample :
    (pack c9State).1 = true ∧ (pack ((pack c9State).2)).1 = true ∧
      ((pack ((pack c9State).2)).2.mods "s").x ≠ (((pack c9State).2).mods "s").x := by
  decide

/-! ## Claim C7: `updateContour` preserves strict sortedness -/

theorem sweep_spec (right top : Int) : ∀ (l : Contour) (ph : Int),
    List.Sublist ((sweep right top ph l).1 ++ (sweep right top ph l).2.2) l ∧
      (∀ q ∈ (sweep right top ph l).1, q.1 < right) ∧
      (∀ q t2, (sweep right top ph l).2.2 = q :: t2 → right ≤ q.1) := by
  intro l
  induction l with
  | nil =>
    intro ph
    refine ⟨List.Sublist.refl _, ?_, ?_⟩
    · intro q hq; exact absurd hq (List.not_mem_nil q)
    · intro q t2 hq; exact absurd hq (by simp [sweep])
  | cons p rest ih =>
    intro ph
    by_cases h1 : p.1 < right
    · by_cases h2 : p.2 ≤ top
      · have hred : sweep right top ph (p :: rest) = sweep right top ph rest := by
          simp [sweep, h1, h2]
        rw [hred]
        obtain ⟨ihs, ihk, ihr⟩ := ih ph
        exact ⟨ihs.trans (List.sublist_cons_self p rest), ihk, ihr⟩
      · have hred : sweep right top ph (p :: rest) =
            (p :: (sweep right top p.2 rest).1, (sweep right top p.2 rest).2.1,
              (sweep right top p.2 rest).2.2) := by
          simp [sweep, h1, h2]
        rw [hred]
        obtain ⟨ihs, ihk, ihr⟩ := ih p.2
        refine ⟨?_, ?_, ?_⟩
        · exact List.Sublist.cons₂ p ihs
        · intro q hq
          rcases List.mem_cons.mp hq with hq | hq
          · rw [hq]; exact h1
          · exact ihk q hq
        · exact ihr
    · have hred : sweep right top ph (p :: rest) = ([], ph, p :: rest) := by
        simp [sweep, h1]
      rw [hred]
      refine ⟨List.Sublist.refl _, ?_, ?_⟩
      · intro q hq; exact absurd hq (List.not_mem_nil q)
      · intro q t2 hq
        have : q = p := by
          have := congrArg (fun l => l.head?) hq
          simpa using this.symm
        rw [this]; omega

theorem rightEdgePart_spec (right ph : Int) (rem : Contour)
    (hrem : rem.Pairwise xLt)
    (hhead : ∀ q t2, rem = q :: t2 → right ≤ q.1) :
    (rightEdgePart right ph rem).Pairwise xLt ∧
      ∀ p ∈ rightEdgePart right ph rem, right ≤ p.1 := by
  cases rem with
  | nil =>
    constructor
    · simp [rightEdgePart]
    · intro p hp
      simp [rightEdgePart] at hp
      rw [hp]
  | cons q t2 =>
    have hq : right ≤ q.1 := hhead q t2 rfl
    have hqt : ∀ e ∈ t2, q.1 < e.1 := fun e he => (List.pairwise_cons.mp hrem).1 e he
    have ht2 : t2.Pairwise xLt := (List.pairwise_cons.mp hrem).2
    by_cases hgt : q.1 > right
    · have hred : rightEdgePart right ph (q :: t2) = (right, ph) :: q :: t2 := by
        simp [rightEdgePart, hgt]
      rw [hred]
      constructor
      · refine List.pairwise_cons.mpr ⟨?_, hrem⟩
        intro e he
        rcases List.mem_cons.mp he with he | he
        · rw [he]; exact hgt
        · exact lt_trans hgt (hqt e he)
      · intro p hp
        rcases List.mem_cons.mp hp with hp | hp
        · rw [hp]
        · rcases List.mem_cons.mp hp with hp | hp
          · rw [hp]; omega
          · exact le_of_lt (lt_of_le_of_lt hq (hqt p hp))
    · have heq : q.1 = right := by omega
      have hred : rightEdgePart right ph (q :: t2) = (right, max q.2 ph) :: t2 := by
        simp [rightEdgePart, hgt]
      rw [hred]
      constructor
      · refine List.pairwise_cons.mpr ⟨?_, ht2⟩
        intro e he
        show right < e.1
        rw [← heq]
        exact hqt e he
      · intro p hp
        rcases List.mem_cons.mp hp with hp | hp
        · rw [hp]
        · rw [← heq]
          exact le_of_lt (hqt p hp)

theorem sorted_dropWhile_ge (x : Int) : ∀ c : Contour, c.Pairwise xLt →
    ∀ q ∈ c.dropWhile (fun p => decide (p.1 < x)), x ≤ q.1 := by
  intro c
  induction c with
  | nil => intro _ q hq; exact absurd hq (List.not_mem_nil q)
  | cons a as ih =>
    intro hp q hq
    have ha : ∀ b ∈ as, a.1 < b.1 := fun b hb => (List.pairwise_cons.mp hp).1 b hb
    have has : as.Pairwise xLt := (List.pairwise_cons.mp hp).2
    by_cases hax : a.1 < x
    · rw [List.dropWhile_cons, if_pos (by simpa using hax)] at hq
      exact ih has q hq
    · rw [List.dropWhile_cons, if_neg (by simpa using hax)] at hq
      rcases List.mem_cons.mp hq with hq | hq
      · rw [hq]; omega
      · exact le_trans (by omega) (le_of_lt (ha q hq))

theorem sweep_append_spec (x right top ph : Int) (cont : Contour) (hxr : x < right)
    (hcont : cont.Pairwise xLt) (hgt : ∀ q ∈ cont, x < q.1) :
    ((sweep right top ph cont).1 ++
        rightEdgePart right (sweep right top ph cont).2.1
          (sweep right top ph cont).2.2).Pairwise xLt ∧
      ∀ p ∈ (sweep right top ph cont).1 ++
          rightEdgePart right (sweep right top ph cont).2.1
            (sweep right top ph cont).2.2, x < p.1 := by
  obtain ⟨hsub, hkept, hrhead⟩ := sweep_spec right top cont ph
  have hboth : ((sweep right top ph cont).1 ++ (sweep right top ph cont).2.2).Pairwise xLt :=
    List.Pairwise.sublist hsub hcont
  have hksorted : (sweep right top ph cont).1.Pairwise xLt :=
    List.Pairwise.sublist (List.sublist_append_left _ _) hboth
  have hrsorted : (sweep right top ph cont).2.2.Pairwise xLt :=
    List.Pairwise.sublist (List.sublist_append_right _ _) hboth
  have hmem : ∀ p ∈ (sweep right top ph cont).1 ++ (sweep right top ph cont).2.2, p ∈ cont :=
    fun p hp => hsub.subset hp
  obtain ⟨htail_sorted, htail_ge⟩ :=
    rightEdgePart_spec right (sweep right top ph cont).2.1 (sweep right top ph cont).2.2
      hrsorted hrhead
  constructor
  · refine (List.pairwise_append).mpr ⟨hksorted, htail_sorted, ?_⟩
    intro a ha b hb
    show a.1 < b.1
    have h1 : a.1 < right := hkept a ha
    have h2 : right ≤ b.1 := htail_ge b hb
    omega
  · intro p hp
    rcases List.mem_append.mp hp with hp | hp
    · exact hgt p (hmem p (List.mem_append.mpr (Or.inl hp)))
    · exact lt_of_lt_of_le hxr (htail_ge p hp)

/-- C7: `updateContour` preserves strict sortedness of the contour: for
every contour whose points are strictly increasing in `x` and every inserted
rectangle with positive width, the resulting contour is again strictly
increasing in `x`. -/
theorem C7_updateContour_sorted (x y w h : Int) (c : Contour)
    (hc : c.Pairwise xLt) (hw : 0 < w) :
    (updateContour x y w h c).Pairwise xLt := by
  cases c with
  | nil =>
    simp only [updateContour]
    refine List.pairwise_cons.mpr ⟨?_, ?_⟩
    · intro e he
      simp only [List.mem_singleton] at he
      rw [he]
      show x < x + w
      omega
    · simp [xLt]
  | cons a as =>
    have hpre_sorted : ((a :: as).takeWhile (fun p => decide (p.1 < x))).Pairwise xLt :=
      List.Pairwise.sublist (List.takeWhile_sublist _) hc
    have hpre_lt : ∀ p ∈ (a :: as).takeWhile (fun p => decide (p.1 < x)), p.1 < x := by
      intro p hp
      have := List.mem_takeWhile_imp hp
      exact of_decide_eq_true this
    have hrest_sorted : ((a :: as).dropWhile (fun p => decide (p.1 < x))).Pairwise xLt :=
      List.Pairwise.sublist (List.dropWhile_sublist _) hc
    have hrest_ge : ∀ q ∈ (a :: as).dropWhile (fun p => decide (p.1 < x)), x ≤ q.1 :=
      sorted_dropWhile_ge x (a :: as) hc
    show (updateContour x y w h (a :: as)).Pairwise xLt
    simp only [updateContour]
    rcases hrest : (a :: as).dropWhile (fun p => decide (p.1 < x)) with _ | ⟨b, bs⟩
    all_goals rw [hrest]
    · -- rest is empty: the point at `x` is new, nothing to sweep
      simp only [atXStep]
      obtain ⟨hmid_sorted, hmid_gt⟩ :=
        sweep_append_spec x (x + w) (y + h) (y + h) [] (by omega)
          (List.Pairwise.nil) (fun q hq => absurd hq (List.not_mem_nil q))
      refine (List.pairwise_append).mpr ⟨hpre_sorted, ?_, ?_⟩
      · refine List.pairwise_cons.mpr ⟨?_, hmid_sorted⟩
        intro e he
        exact hmid_gt e he
      · intro p hp e he
        have hpx : p.1 < x := hpre_lt p hp
        rcases List.mem_cons.mp he with he | he
        · rw [he]; exact hpx
        · exact lt_trans hpx (hmid_gt e he)
    · rw [hrest] at hrest_sorted hrest_ge
      have hb_ge : x ≤ b.1 := hrest_ge b (List.mem_cons_self b bs)
      have hb_bs : ∀ e ∈ bs, b.1 < e.1 :=
        fun e he => (List.pairwise_cons.mp hrest_sorted).1 e he
      have hbs_sorted : bs.Pairwise xLt := (List.pairwise_cons.mp hrest_sorted).2
      simp only [atXStep]
      by_cases hbx : b.1 > x
      · -- a new point is inserted at `x`; the whole rest is swept
        rw [if_pos hbx]
        obtain ⟨hmid_sorted, hmid_gt⟩ :=
          sweep_append_spec x (x + w) (y + h) (y + h) (b :: bs) (by omega)
            hrest_sorted
            (by
              intro q hq
              rcases List.mem_cons.mp hq with hq | hq
              · rw [hq]; exact hbx
              · exact lt_trans hbx (hb_bs q hq))
        refine (List.pairwise_append).mpr ⟨hpre_sorted, ?_, ?_⟩
        · refine List.pairwise_cons.mpr ⟨?_, hmid_sorted⟩
          intro e he
          exact hmid_gt e he
        · intro p hp e he
          have hpx : p.1 < x := hpre_lt p hp
          rcases List.mem_cons.mp he with he | he
          · rw [he]; exact hpx
          · exact lt_trans hpx (hmid_gt e he)
      · -- the existing point at `x` is raised; its tail is swept
        rw [if_neg hbx]
        obtain ⟨hmid_sorted, hmid_gt⟩ :=
          sweep_append_spec x (x + w) (y + h) (max b.2 (y + h)) bs (by omega)
            hbs_sorted
            (by
              intro q hq
              have hbeq : b.1 = x := by omega
              rw [← hbeq]
              exact hb_bs q hq)
        refine (List.pairwise_append).mpr ⟨hpre_sorted, ?_, ?_⟩
        · refine List.pairwise_cons.mpr ⟨?_, hmid_sorted⟩
          intro e he
          exact hmid_gt e he
        · intro p hp e he
          have hpx : p.1 < x := hpre_lt p hp
          rcases List.mem_cons.mp he with he | he
          · rw [he]; exact hpx
          · exact lt_trans hpx (hmid_gt e he)

/-- Witness for C7: inserting `(1, 0) × [2, 3)` into the sorted contour
`[(0,1), (2,0)]` yields a strictly sorted contour. -/
theorem C7_updateContour_sorted_witness :
    (updateContour 1 0 2 3 [(0, 1), (2, 0)]).Pairwise xLt :=
  C7_updateContour_sorted 1 0 2 3 [(0, 1), (2, 0)]
    (by simp [xLt]) (by omega)

/-! ## Claim C10: `compactPlacement` touches only the representatives -/

theorem setMapX_names (pl : PosMap) (n : Name) (x : Int) :
    (setMapX pl n x).map (fun p => p.1) = pl.map (fun p => p.1) := by
  induction pl with
  | nil => rfl
  | cons p t ih =>
    simp only [setMapX, List.map_cons] at *
    split <;> simp [ih]

theorem setMapY_names (pl : PosMap) (n : Name) (y : Int) :
    (setMapY pl n y).map (fun p => p.1) = pl.map (fun p => p.1) := by
  induction pl with
  | nil => rfl
  | cons p t ih =>
    simp only [setMapY, List.map_cons] at *
    split <;> simp [ih]

theorem xCompactGo_names (dims : Name → Int × Int) :
    ∀ (todo done : List Name) (pl : PosMap),
      (xCompactGo dims done todo pl).map (fun p => p.1) = pl.map (fun p => p.1) := by
  intro todo
  induction todo with
  | nil => intro done pl; rfl
  | cons cur rest ih =>
    intro done pl
    show (xCompactGo dims (done ++ [cur]) rest _).map _ = _
    rw [ih]
    split
    · exact setMapX_names _ _ _
    · rfl

theorem yCompactGo_names (dims : Name → Int × Int) :
    ∀ (todo done : List Name) (pl : PosMap),
      (yCompactGo dims done todo pl).map (fun p => p.1) = pl.map (fun p => p.1) := by
  intro todo
  induction todo with
  | nil => intro done pl; rfl
  | cons cur rest ih =>
    intro done pl
    show (yCompactGo dims (done ++ [cur]) rest _).map _ = _
    rw [ih]
    split
    · exact setMapY_names _ _ _
    · rfl

theorem xCompact_names (dims : Name → Int × Int) (pl : PosMap) :
    (xCompact dims pl).map (fun p => p.1) = pl.map (fun p => p.1) := by
  simp only [xCompact]
  split
  · rfl
  · exact xCompactGo_names dims _ _ pl

theorem yCompact_names (dims : Name → Int × Int) (pl : PosMap) :
    (yCompact dims pl).map (fun p => p.1) = pl.map (fun p => p.1) := by
  simp only [yCompact]
  split
  · rfl
  · exact yCompactGo_names dims _ _ pl

theorem compactCore_names (vertical : Bool) (dims : Name → Int × Int) (pl0 : PosMap) :
    (compactCore vertical dims pl0).map (fun p => p.1) = pl0.map (fun p => p.1) := by
  simp only [compactCore]
  split
  · rw [yCompact_names, xCompact_names]
    split
    · rw [List.map_map]; rfl
    · rfl
  · rw [xCompact_names, yCompact_names]
    split
    · rw [List.map_map]; rfl
    · rfl

theorem posFold_frame : ∀ (pl : PosMap) (f : Name → Module) (n : Name),
    n ∉ pl.map (fun p => p.1) →
    (pl.foldl (fun g p => updMod g p.1 (setPos (g p.1) p.2.1 p.2.2)) f) n = f n := by
  intro pl
  induction pl with
  | nil => intro f n _; rfl
  | cons p t ih =>
    intro f n hn
    simp only [List.map_cons, List.mem_cons] at hn
    push_neg at hn
    show (t.foldl _ (updMod f p.1 (setPos (f p.1) p.2.1 p.2.2))) n = f n
    rw [ih _ n hn.2]
    simp [updMod, hn.1]

theorem compact_frame (s : EngineState) (n : Name) (hn : n ∉ s.reps) :
    (compactPlacement s).mods n = s.mods n := by
  unfold compactPlacement
  apply posFold_frame
  rw [compactCore_names]
  rw [List.map_map]
  intro hmem
  apply hn
  obtain ⟨m, hm, hmn⟩ := List.mem_map.mp hmem
  exact hmn ▸ hm

/-- C10: `compactPlacement` reads and writes positions only of modules in
`representativeModules`: every module that is not a representative — in
particular every symmetry-pair partner — is exactly the same after
`compactPlacement` as before. -/
theorem C10_compact_frame (s : EngineState) (n : Name) (hn : n ∉ s.reps) :
    (compactPlacement s).mods n = s.mods n :=
  compact_frame s n hn

/-- Witness for C10: at `c8State`, the module `"q"` (not a representative)
is untouched by `compactPlacement`. -/
theorem C10_compact_frame_witness :
    (compactPlacement c8State).mods "q" = c8State.mods "q" :=
  C10_compact_frame c8State "q" (by decide)

/-! ## Claim C6: self-symmetric modules on the boundary branch -/

theorem graftAt_rightmost_mono : ∀ (t : BTree) (p : List Bool) (nm n : Name),
    n ∈ t.rightmostNames → n ∈ (t.graftAt p nm).rightmostNames := by
  intro t
  induction t with
  | nil => intro p nm n hn; exact absurd hn (List.not_mem_nil n)
  | node m l r ihl ihr =>
    intro p nm n hn
    cases p with
    | nil => exact hn
    | cons d p' =>
      cases d with
      | false => exact hn
      | true =>
        rcases List.mem_cons.mp hn with hn | hn
        · rw [hn]; exact List.mem_cons_self _ _
        · exact List.mem_cons_of_mem _ (ihr p' nm n hn)

theorem graftAt_leftmost_mono : ∀ (t : BTree) (p : List Bool) (nm n : Name),
    n ∈ t.leftmostNames → n ∈ (t.graftAt p nm).leftmostNames := by
  intro t
  induction t with
  | nil => intro p nm n hn; exact absurd hn (List.not_mem_nil n)
  | node m l r ihl ihr =>
    intro p nm n hn
    cases p with
    | nil => exact hn
    | cons d p' =>
      cases d with
      | true => exact hn
      | false =>
        rcases List.mem_cons.mp hn with hn | hn
        · rw [hn]; exact List.mem_cons_self _ _
        · exact List.mem_cons_of_mem _ (ihl p' nm n hn)

theorem insertNonSelfV_rightmost_mono (st : BTree × List Bool) (i : Nat) (nm n : Name)
    (hn : n ∈ st.1.rightmostNames) :
    n ∈ (insertNonSelfV st i nm).1.rightmostNames := by
  simp only [insertNonSelfV]
  split
  · split
    · exact graftAt_rightmost_mono _ _ _ _ hn
    · exact graftAt_rightmost_mono _ _ _ _ hn
  · split
    · split
      · exact graftAt_rightmost_mono _ _ _ _ hn
      · split
        · exact graftAt_rightmost_mono _ _ _ _ hn
        · exact hn
    · split
      · exact graftAt_rightmost_mono _ _ _ _ hn
      · split
        · exact graftAt_rightmost_mono _ _ _ _ hn
        · exact hn

theorem insertNonSelfH_leftmost_mono (st : BTree × List Bool) (i : Nat) (nm n : Name)
    (hn : n ∈ st.1.leftmostNames) :
    n ∈ (insertNonSelfH st i nm).1.leftmostNames := by
  simp only [insertNonSelfH]
  split
  · split
    · exact graftAt_leftmost_mono _ _ _ _ hn
    · exact graftAt_leftmost_mono _ _ _ _ hn
  · split
    · split
      · exact graftAt_leftmost_mono _ _ _ _ hn
      · split
        · exact graftAt_leftmost_mono _ _ _ _ hn
        · exact hn
    · split
      · exact graftAt_leftmost_mono _ _ _ _ hn
      · split
        · exact graftAt_leftmost_mono _ _ _ _ hn
        · exact hn

theorem foldV_rightmost_mono (n : Name) :
    ∀ (L : List (Nat × Name)) (st : BTree × List Bool), n ∈ st.1.rightmostNames →
      n ∈ (L.foldl (fun st p => insertNonSelfV st p.1 p.2) st).1.rightmostNames := by
  intro L
  induction L with
  | nil => intro st hn; exact hn
  | cons p rest ih =>
    intro st hn
    exact ih _ (insertNonSelfV_rightmost_mono st p.1 p.2 n hn)

theorem foldH_leftmost_mono (n : Name) :
    ∀ (L : List (Nat × Name)) (st : BTree × List Bool), n ∈ st.1.leftmostNames →
      n ∈ (L.foldl (fun st p => insertNonSelfH st p.1 p.2) st).1.leftmostNames := by
  intro L
  induction L with
  | nil => intro st hn; exact hn
  | cons p rest ih =>
    intro st hn
    exact ih _ (insertNonSelfH_leftmost_mono st p.1 p.2 n hn)

theorem chainRight_rightmostNames : ∀ l : List Name,
    (BTree.chainRight l).rightmostNames = l := by
  intro l
  induction l with
  | nil => rfl
  | cons a t ih => simp [BTree.chainRight, BTree.rightmostNames, ih]

theorem chainLeft_leftmostNames : ∀ l : List Name,
    (BTree.chainLeft l).leftmostNames = l := by
  intro l
  induction l with
  | nil => rfl
  | cons a t ih => simp [BTree.chainLeft, BTree.leftmostNames, ih]

/-- C6: when `buildInitialBStarTree` completes, every self-symmetric module
lies on the rightmost branch for a VERTICAL group, and on the leftmost
branch for a HORIZONTAL group. -/
theorem C6_selfsym_on_boundary (s : EngineState) (t : BTree)
    (hb : buildInitialBStarTree s = some t) (n : Name) (hn : n ∈ s.selfSyms) :
    (s.vertical = true → n ∈ t.rightmostNames) ∧
      (s.vertical = false → n ∈ t.leftmostNames) := by
  unfold buildInitialBStarTree at hb
  rcases hreps : s.reps with _ | ⟨r0, reps'⟩
  · rw [hreps] at hb; exact absurd hb (by simp)
  rw [hreps] at hb
  rcases hns : nonSelfSorted s with _ | ⟨rn, rest⟩
  all_goals rw [hns] at hb
  · -- no non-self-symmetric representatives: the root is self-symmetric
    rcases hss : s.selfSyms with _ | ⟨sn, rest'⟩
    · rw [hss] at hn; exact absurd hn (List.not_mem_nil n)
    rw [hss] at hb
    simp only [List.enum_nil, List.foldl_nil] at hb
    constructor
    · intro hv
      rw [hv] at hb
      simp only [if_true] at hb
      have ht : t = BTree.node sn BTree.nil (BTree.chainRight rest') := by
        simpa using hb.symm
      rw [ht]
      show n ∈ sn :: (BTree.chainRight rest').rightmostNames
      rw [chainRight_rightmostNames]
      rw [hss] at hn
      exact hn
    · intro hv
      rw [hv] at hb
      simp only [Bool.false_eq_true, if_false] at hb
      have ht : t = BTree.node sn (BTree.chainLeft rest') BTree.nil := by
        simpa using hb.symm
      rw [ht]
      show n ∈ sn :: (BTree.chainLeft rest').leftmostNames
      rw [chainLeft_leftmostNames]
      rw [hss] at hn
      exact hn
  · -- the root is non-self-symmetric; all self-symmetric modules are chained
    constructor
    · intro hv
      rw [hv] at hb
      simp only [if_true] at hb
      have ht : t = (rest.enum.foldl (fun st p => insertNonSelfV st p.1 p.2)
          (BTree.node rn BTree.nil (BTree.chainRight s.selfSyms),
            List.replicate s.selfSyms.length true)).1 := by
        simpa using hb.symm
      rw [ht]
      apply foldV_rightmost_mono
      show n ∈ rn :: (BTree.chainRight s.selfSyms).rightmostNames
      rw [chainRight_rightmostNames]
      exact List.mem_cons_of_mem rn hn
    · intro hv
      rw [hv] at hb
      simp only [Bool.false_eq_true, if_false] at hb
      have ht : t = (rest.enum.foldl (fun st p => insertNonSelfH st p.1 p.2)
          (BTree.node rn (BTree.chainLeft s.selfSyms) BTree.nil,
            List.replicate s.selfSyms.length false)).1 := by
        simpa using hb.symm
      rw [ht]
      apply foldH_leftmost_mono
      show n ∈ rn :: (BTree.chainLeft s.selfSyms).leftmostNames
      rw [chainLeft_leftmostNames]
      exact List.mem_cons_of_mem rn hn

/-- Witness for C6: at `c6State` the builder succeeds and the self-symmetric
module `"c"` is on the rightmost branch. -/
theorem C6_selfsym_on_boundary_witness :
    "c" ∈ (BTree.node "d" BTree.nil (BTree.node "c" BTree.nil BTree.nil)).rightmostNames :=
  (C6_selfsym_on_boundary c6State
    (BTree.node "d" BTree.nil (BTree.node "c" BTree.nil BTree.nil))
    (by decide) "c" (by decide)).1 rfl

/-! ## Amended C1: what a successful `pack` does guarantee -/

/-- C1 as amended: `pack() == true` certifies exactly the `validateSymmetry`
checks on the final placement — every module has non-negative coordinates,
every pair present in the module table has center sums along the mirror
dimension within `1.0` of `2·axis` and matching centers along the other
dimension within `1.0`, and every self-symmetric module is centered on the
axis within `1.0` (all stated in quarter units, for both orientations).  No
interior-overlap check is performed by `pack()`, and overlapping placements
can be returned as successful. -/
theorem C1_amended_pack_true_validator (s : EngineState)
    (h : (pack s).1 = true) :
    (∀ n ∈ (pack s).2.moduleNames,
        0 ≤ ((pack s).2.mods n).x ∧ 0 ≤ ((pack s).2.mods n).y) ∧
      (∀ rp ∈ (pack s).2.repToPair,
        rp.1 ∈ (pack s).2.moduleNames → rp.2 ∈ (pack s).2.moduleNames →
          if (pack s).2.vertical then
            |2 * (pack s).2.axis4 -
                (centerX4 ((pack s).2.mods rp.1) + centerX4 ((pack s).2.mods rp.2))| ≤ 4 ∧
              |centerY4 ((pack s).2.mods rp.1) - centerY4 ((pack s).2.mods rp.2)| ≤ 4
          else
            |2 * (pack s).2.axis4 -
                (centerY4 ((pack s).2.mods rp.1) + centerY4 ((pack s).2.mods rp.2))| ≤ 4 ∧
              |centerX4 ((pack s).2.mods rp.1) - centerX4 ((pack s).2.mods rp.2)| ≤ 4) ∧
      ∀ n ∈ (pack s).2.selfSyms, n ∈ (pack s).2.moduleNames →
        if (pack s).2.vertical then
          |centerX4 ((pack s).2.mods n) - (pack s).2.axis4| ≤ 4
        else
          |centerY4 ((pack s).2.mods n) - (pack s).2.axis4| ≤ 4 := by
  have hval : validateSymmetry (pack s).2 = true := h
  simp only [validateSymmetry, Bool.and_eq_true, List.all_eq_true] at hval
  obtain ⟨⟨hneg, hpairs⟩, hselfs⟩ := hval
  refine ⟨?_, ?_, ?_⟩
  · intro n hn
    simp only [noNegativeCoords, List.all_eq_true] at hneg
    have hok := hneg n hn
    simp only [Bool.not_eq_true', Bool.or_eq_false_iff, decide_eq_false_iff_not,
      Int.not_lt] at hok
    exact hok
  · intro rp hrp h1 h2
    have hok := hpairs rp hrp
    simp only [pairSymOk] at hok
    rw [if_neg (by simp [h1, h2])] at hok
    rcases hv : (pack s).2.vertical with _ | _ <;> rw [hv] at hok <;>
      simp only [Bool.false_eq_true, if_false, if_true] at hok ⊢ <;>
      simpa using hok
  · intro n hn h1
    have hok := hselfs n hn
    simp only [selfSymOk] at hok
    rw [if_neg (by simp [h1])] at hok
    rcases hv : (pack s).2.vertical with _ | _ <;> rw [hv] at hok <;>
      simp only [Bool.false_eq_true, if_false, if_true] at hok ⊢ <;>
      simpa using hok

/-! ## Amended C2: the left-child placement rule as implemented -/

theorem bfsTrace_pred (dim : Name → Int × Int) :
    ∀ (fuel : Nat) (q : List (BTree × Int × Int)) (c : Contour) (e : LeftPlacement),
      e ∈ (bfsRun dim fuel q c).2.1 → sourceC2Pred e = true := by
  intro fuel
  induction fuel with
  | zero => intro q c e he; simp [bfsRun] at he
  | succ n ih =>
    intro q c e he
    cases q with
    | nil => simp [bfsRun] at he
    | cons entry rest =>
      obtain ⟨t, nx, ny⟩ := entry
      cases t with
      | nil =>
        simp only [bfsRun] at he
        exact ih _ _ e he
      | node nm l r =>
        cases l with
        | nil =>
          cases r with
          | nil =>
            simp only [bfsRun] at he
            exact ih _ _ e (by simpa using he)
          | node rm rl rr =>
            simp only [bfsRun] at he
            exact ih _ _ e (by simpa using he)
        | node lm ll lr =>
          cases r with
          | nil =>
            simp only [bfsRun] at he
            simp only [List.cons_append, List.nil_append, List.mem_cons] at he
            rcases he with he | he
            · rw [he]; simp [sourceC2Pred]
            · exact ih _ _ e he
          | node rm rl rr =>
            simp only [bfsRun] at he
            simp only [List.cons_append, List.nil_append, List.mem_cons] at he
            rcases he with he | he
            · rw [he]; simp [sourceC2Pred]
            · exact ih _ _ e he

/-- C2 as amended: during packing, every left child is placed at
`x_L = parent.x + parent.width`, and at `y_L = parent.y` when the contour
over `[x_L, x_L + w_L)` does not exceed `parent.y`; *otherwise at
`y_L = heightAt(x_L)`, the contour height at the single abscissa `x_L`* —
not the maximum contour height over the interval. -/
theorem C2_amended_left_rule (s : EngineState) (e : LeftPlacement)
    (he : e ∈ packTrace s) : sourceC2Pred e = true := by
  unfold packTrace packPlacements at he
  rcases htree : s.tree with _ | ⟨nm, l, r⟩
  · rw [htree] at he; simp at he
  · rw [htree] at he
    exact bfsTrace_pred _ _ _ _ e (by simpa using he)

/-- Witness for the amended C2: the first left-child placement of the BFS on
`c2State` (child `b` of the root `a`) satisfies the implemented rule. -/
theorem C2_amended_left_rule_witness :
    sourceC2Pred ⟨[(0, 1), (2, 0)], 0, 0, 2, 1, 1, 2, 0⟩ = true :=
  C2_amended_left_rule c2State ⟨[(0, 1), (2, 0)], 0, 0, 2, 1, 1, 2, 0⟩ (by decide)

/-! ## Amended C9: idempotence in the absence of rotation

The analysis compares the two runs of the pipeline stage by stage.  All
stages write deterministic values computed from the tree, the dimensions and
already-written positions, so once the inputs read by a stage agree between
the runs, its outputs agree as well. -/

theorem posFold_pos_eq : ∀ (pl : PosMap) (f g : Name → Module) (n : Name),
    n ∈ pl.map (fun p => p.1) →
    posEq ((pl.foldl (fun h p => updMod h p.1 (setPos (h p.1) p.2.1 p.2.2)) f) n)
      ((pl.foldl (fun h p => updMod h p.1 (setPos (h p.1) p.2.1 p.2.2)) g) n) := by
  intro pl
  induction pl with
  | nil => intro f g n hn; exact absurd hn (List.not_mem_nil n)
  | cons p t ih =>
    intro f g n hn
    by_cases hnt : n ∈ t.map (fun p => p.1)
    · exact ih _ _ n hnt
    · have hnp : n = p.1 := by
        rcases List.mem_cons.mp hn with h | h
        · exact h
        · exact absurd h hnt
      show posEq ((t.foldl _ (updMod f p.1 (setPos (f p.1) p.2.1 p.2.2))) n)
        ((t.foldl _ (updMod g p.1 (setPos (g p.1) p.2.1 p.2.2))) n)
      rw [posFold_frame _ _ n hnt, posFold_frame _ _ n hnt]
      subst hnp
      simp [updMod, posEq, setPos]

theorem posFold_dims : ∀ (pl : PosMap) (f : Name → Module) (n : Name),
    dimsEq ((pl.foldl (fun h p => updMod h p.1 (setPos (h p.1) p.2.1 p.2.2)) f) n) (f n) := by
  intro pl
  induction pl with
  | nil => intro f n; exact ⟨rfl, rfl⟩
  | cons p t ih =>
    intro f n
    have h1 := ih (updMod f p.1 (setPos (f p.1) p.2.1 p.2.2)) n
    have h2 : dimsEq ((updMod f p.1 (setPos (f p.1) p.2.1 p.2.2)) n) (f n) := by
      by_cases hn : n = p.1
      · subst hn; simp [updMod, setPos, dimsEq]
      · simp [updMod, hn, dimsEq]
    exact ⟨h1.1.trans h2.1, h1.2.trans h2.2⟩

theorem pairStep_frame (v : Bool) (a4 : Int) (f : Name → Module) (rp : Name × Name)
    (n : Name) (hn : n ≠ rp.2) : pairStep v a4 f rp n = f n := by
  simp only [pairStep]
  split <;> simp [updMod, hn]

theorem pairsFold_frame (v : Bool) (a4 : Int) : ∀ (L : List (Name × Name))
    (f : Name → Module) (n : Name), n ∉ L.map (fun p => p.2) →
    pairsFold v a4 L f n = f n := by
  intro L
  induction L with
  | nil => intro f n _; rfl
  | cons rp T ih =>
    intro f n hn
    simp only [List.map_cons, List.mem_cons] at hn
    push_neg at hn
    show pairsFold v a4 T (pairStep v a4 f rp) n = f n
    rw [ih _ n hn.2]
    exact pairStep_frame v a4 f rp n hn.1

theorem rotationTriggered_congr (f g : Name → Module) (rp : Name × Name)
    (h1 : dimsEq (f rp.1) (g rp.1)) (h2 : dimsEq (f rp.2) (g rp.2)) :
    rotationTriggered f rp = rotationTriggered g rp := by
  simp [rotationTriggered, h1.1, h1.2, h2.1, h2.2]

theorem pairStep_dims (v : Bool) (a4 : Int) (f : Name → Module) (rp : Name × Name)
    (n : Name) : dimsEq ((pairStep v a4 f rp) n) (f n) ∨
      (n = rp.2 ∧ rotationTriggered f rp = true ∧
        ((pairStep v a4 f rp) n).width = (f n).height ∧
        ((pairStep v a4 f rp) n).height = (f n).width) := by
  by_cases hn : n = rp.2
  · subst hn
    rcases hrot : rotationTriggered f rp with _ | _
    · left
      simp only [pairStep, hrot, Bool.false_eq_true, if_false]
      split <;> simp [updMod, setPos, dimsEq]
    · right
      refine ⟨rfl, rfl, ?_⟩
      simp only [pairStep, hrot, if_true]
      split <;> simp [updMod, setPos, rotateM]
  · left
    rw [pairStep_frame v a4 f rp n hn]
    exact ⟨rfl, rfl⟩

theorem pairStep_dims_no_rot (v : Bool) (a4 : Int) (f : Name → Module)
    (rp : Name × Name) (hrot : rotationTriggered f rp = false) (n : Name) :
    dimsEq ((pairStep v a4 f rp) n) (f n) := by
  rcases pairStep_dims v a4 f rp n with h | h
  · exact h
  · rw [h.2.1] at hrot; exact absurd hrot (by simp)

theorem pairsFold_dims_ref (v : Bool) (a4 : Int) :
    ∀ (L : List (Name × Name)) (f m0 : Name → Module),
      (∀ n, dimsEq (f n) (m0 n)) →
      (∀ rp ∈ L, rotationTriggered m0 rp = false) →
      ∀ n, dimsEq ((pairsFold v a4 L f) n) (m0 n) := by
  intro L
  induction L with
  | nil => intro f m0 hd _ n; exact hd n
  | cons rp T ih =>
    intro f m0 hd hrot n
    have hstep : rotationTriggered f rp = false := by
      rw [rotationTriggered_congr f m0 rp (hd rp.1) (hd rp.2)]
      exact hrot rp (List.mem_cons_self rp T)
    have hd' : ∀ k, dimsEq ((pairStep v a4 f rp) k) (m0 k) := by
      intro k
      have h1 := pairStep_dims_no_rot v a4 f rp hstep k
      exact ⟨h1.1.trans (hd k).1, h1.2.trans (hd k).2⟩
    exact ih _ m0 hd' (fun q hq => hrot q (List.mem_cons_of_mem rp hq)) n

theorem selfStep_dims (v : Bool) (a4 : Int) (f : Name → Module) (k n : Name) :
    dimsEq ((selfStep v a4 f k) n) (f n) := by
  simp only [selfStep]
  by_cases hn : n = k
  · subst hn; split <;> simp [updMod, setPos, dimsEq]
  · split <;> simp [updMod, hn, dimsEq]

theorem selfFold_dims (v : Bool) (a4 : Int) : ∀ (L : List Name) (f : Name → Module)
    (n : Name), dimsEq ((selfFold v a4 L f) n) (f n) := by
  intro L
  induction L with
  | nil => intro f n; exact ⟨rfl, rfl⟩
  | cons k T ih =>
    intro f n
    have h1 := ih (selfStep v a4 f k) n
    have h2 := selfStep_dims v a4 f k n
    exact ⟨h1.1.trans h2.1, h1.2.trans h2.2⟩

theorem selfStepV_y (a4 : Int) (f : Name → Module) (k n : Name) :
    ((selfStep true a4 f k) n).y = (f n).y := by
  simp only [selfStep, if_pos rfl]
  by_cases hn : n = k
  · subst hn; simp [updMod, setPos]
  · simp [updMod, hn]

theorem selfFoldV_y (a4 : Int) : ∀ (L : List Name) (f : Name → Module) (n : Name),
    ((selfFold true a4 L f) n).y = (f n).y := by
  intro L
  induction L with
  | nil => intro f n; rfl
  | cons k T ih =>
    intro f n
    show ((selfFold true a4 T (selfStep true a4 f k)) n).y = (f n).y
    rw [ih _ n, selfStepV_y]

theorem selfStepH_x (a4 : Int) (f : Name → Module) (k n : Name) :
    ((selfStep false a4 f k) n).x = (f n).x := by
  simp only [selfStep]
  rw [if_neg (by simp)]
  by_cases hn : n = k
  · subst hn; simp [updMod, setPos]
  · simp [updMod, hn]

theorem selfFoldH_x (a4 : Int) : ∀ (L : List Name) (f : Name → Module) (n : Name),
    ((selfFold false a4 L f) n).x = (f n).x := by
  intro L
  induction L with
  | nil => intro f n; rfl
  | cons k T ih =>
    intro f n
    show ((selfFold false a4 T (selfStep false a4 f k)) n).x = (f n).x
    rw [ih _ n, selfStepH_x]

theorem pairStep_cross_dims (v : Bool) (a4 : Int) (f g : Name → Module)
    (rp : Name × Name) (hd : ∀ n, dimsEq (f n) (g n)) (n : Name) :
    dimsEq ((pairStep v a4 f rp) n) ((pairStep v a4 g rp) n) := by
  by_cases hn : n = rp.2
  · subst hn
    have hb : rotationTriggered g rp = rotationTriggered f rp :=
      (rotationTriggered_congr f g rp (hd rp.1) (hd rp.2)).symm
    simp only [pairStep, hb, updMod, if_pos rfl]
    rcases hrot : rotationTriggered f rp with _ | _ <;>
      simp only [Bool.false_eq_true, if_false, if_true] <;>
      rcases v with _ | _ <;>
      simp [setPos, dimsEq, rotateM, (hd rp.2).1, (hd rp.2).2]
  · rw [pairStep_frame v a4 f rp n hn, pairStep_frame v a4 g rp n hn]
    exact hd n

theorem pairStep_cross_pos (v : Bool) (a4 : Int) (f g : Name → Module)
    (rp : Name × Name) (hd : ∀ n, dimsEq (f n) (g n))
    (hrep : posEq (f rp.1) (g rp.1)) :
    posEq ((pairStep v a4 f rp) rp.2) ((pairStep v a4 g rp) rp.2) := by
  have hb : rotationTriggered g rp = rotationTriggered f rp :=
    (rotationTriggered_congr f g rp (hd rp.1) (hd rp.2)).symm
  simp only [pairStep, hb, updMod, if_pos rfl]
  rcases hrot : rotationTriggered f rp with _ | _ <;>
    simp only [Bool.false_eq_true, if_false, if_true] <;>
    rcases v with _ | _ <;>
    simp [setPos, posEq, rotateM, centerX4, centerY4, hrep.1, hrep.2,
      (hd rp.1).1, (hd rp.1).2, (hd rp.2).1, (hd rp.2).2]

theorem pairsFold_congr (v : Bool) (a4 : Int) :
    ∀ (L : List (Name × Name)) (f g : Name → Module) (X : Name → Prop),
      (∀ n, dimsEq (f n) (g n)) →
      (∀ n, X n → posEq (f n) (g n)) →
      (∀ rp ∈ L, X rp.1) →
      (∀ n, dimsEq ((pairsFold v a4 L f) n) ((pairsFold v a4 L g) n)) ∧
        (∀ n, X n → posEq ((pairsFold v a4 L f) n) ((pairsFold v a4 L g) n)) ∧
        (∀ rp ∈ L, posEq ((pairsFold v a4 L f) rp.2) ((pairsFold v a4 L g) rp.2)) := by
  intro L
  induction L with
  | nil =>
    intro f g X hd hX _
    exact ⟨hd, hX, fun rp hrp => absurd hrp (List.not_mem_nil rp)⟩
  | cons rp T ih =>
    intro f g X hd hX hreps
    have hrepX : X rp.1 := hreps rp (List.mem_cons_self rp T)
    have hd' : ∀ n, dimsEq ((pairStep v a4 f rp) n) ((pairStep v a4 g rp) n) :=
      pairStep_cross_dims v a4 f g rp hd
    have hwrite : posEq ((pairStep v a4 f rp) rp.2) ((pairStep v a4 g rp) rp.2) :=
      pairStep_cross_pos v a4 f g rp hd (hX rp.1 hrepX)
    have hX' : ∀ n, (X n ∨ n = rp.2) →
        posEq ((pairStep v a4 f rp) n) ((pairStep v a4 g rp) n) := by
      intro n hn
      by_cases hn2 : n = rp.2
      · subst hn2; exact hwrite
      · rcases hn with hn | hn
        · rw [pairStep_frame v a4 f rp n hn2, pairStep_frame v a4 g rp n hn2]
          exact hX n hn
        · exact absurd hn hn2
    have hreps' : ∀ q ∈ T, (X q.1 ∨ q.1 = rp.2) :=
      fun q hq => Or.inl (hreps q (List.mem_cons_of_mem rp hq))
    obtain ⟨c1, c2, c3⟩ :=
      ih (pairStep v a4 f rp) (pairStep v a4 g rp) (fun n => X n ∨ n = rp.2)
        hd' hX' hreps'
    refine ⟨c1, ?_, ?_⟩
    · intro n hn
      exact c2 n (Or.inl hn)
    · intro q hq
      rcases List.mem_cons.mp hq with hq | hq
      · subst hq
        exact c2 q.2 (Or.inr rfl)
      · exact c3 q hq

theorem selfFoldV_congr (a4 : Int) :
    ∀ (L : List Name) (f g : Name → Module) (X : Name → Prop),
      (∀ n, dimsEq (f n) (g n)) →
      (∀ n, X n → posEq (f n) (g n)) →
      (∀ n ∈ L, (f n).y = (g n).y) →
      (∀ n, X n → posEq ((selfFold true a4 L f) n) ((selfFold true a4 L g) n)) ∧
        (∀ n ∈ L, posEq ((selfFold true a4 L f) n) ((selfFold true a4 L g) n)) := by
  intro L
  induction L with
  | nil =>
    intro f g X _ hX _
    exact ⟨hX, fun n hn => absurd hn (List.not_mem_nil n)⟩
  | cons k T ih =>
    intro f g X hd hX hy
    have hd' : ∀ n, dimsEq ((selfStep true a4 f k) n) ((selfStep true a4 g k) n) := by
      intro n
      have h1 := selfStep_dims true a4 f k n
      have h2 := selfStep_dims true a4 g k n
      exact ⟨h1.1.trans ((hd n).1.trans h2.1.symm), h1.2.trans ((hd n).2.trans h2.2.symm)⟩
    have hwrite : posEq ((selfStep true a4 f k) k) ((selfStep true a4 g k) k) := by
      simp only [selfStep, if_pos rfl]
      simp [updMod, setPos, posEq, (hd k).1, hy k (List.mem_cons_self k T)]
    have hframe : ∀ n, n ≠ k →
        (selfStep true a4 f k) n = f n ∧ (selfStep true a4 g k) n = g n := by
      intro n hn
      constructor <;> · simp only [selfStep, if_pos rfl]; simp [updMod, hn]
    have hX' : ∀ n, (X n ∨ n = k) →
        posEq ((selfStep true a4 f k) n) ((selfStep true a4 g k) n) := by
      intro n hn
      by_cases hnk : n = k
      · subst hnk; exact hwrite
      · rcases hn with hn | hn
        · rw [(hframe n hnk).1, (hframe n hnk).2]; exact hX n hn
        · exact absurd hn hnk
    have hy' : ∀ n ∈ T, ((selfStep true a4 f k) n).y = ((selfStep true a4 g k) n).y := by
      intro n hn
      rw [selfStepV_y, selfStepV_y]
      exact hy n (List.mem_cons_of_mem k hn)
    obtain ⟨c1, c2⟩ :=
      ih (selfStep true a4 f k) (selfStep true a4 g k) (fun n => X n ∨ n = k)
        hd' hX' hy'
    refine ⟨fun n hn => c1 n (Or.inl hn), ?_⟩
    intro n hn
    rcases List.mem_cons.mp hn with hn | hn
    · subst hn; exact c1 n (Or.inr rfl)
    · exact c2 n hn

theorem selfFoldH_congr (a4 : Int) :
    ∀ (L : List Name) (f g : Name → Module) (X : Name → Prop),
      (∀ n, dimsEq (f n) (g n)) →
      (∀ n, X n → posEq (f n) (g n)) →
      (∀ n ∈ L, (f n).x = (g n).x) →
      (∀ n, X n → posEq ((selfFold false a4 L f) n) ((selfFold false a4 L g) n)) ∧
        (∀ n ∈ L, posEq ((selfFold false a4 L f) n) ((selfFold false a4 L g) n)) := by
  intro L
  induction L with
  | nil =>
    intro f g X _ hX _
    exact ⟨hX, fun n hn => absurd hn (List.not_mem_nil n)⟩
  | cons k T ih =>
    intro f g X hd hX hx
    have hd' : ∀ n, dimsEq ((selfStep false a4 f k) n) ((selfStep false a4 g k) n) := by
      intro n
      have h1 := selfStep_dims false a4 f k n
      have h2 := selfStep_dims false a4 g k n
      exact ⟨h1.1.trans ((hd n).1.trans h2.1.symm), h1.2.trans ((hd n).2.trans h2.2.symm)⟩
    have hwrite : posEq ((selfStep false a4 f k) k) ((selfStep false a4 g k) k) := by
      simp only [selfStep]
      rw [if_neg (by simp), if_neg (by simp)]
      simp [updMod, setPos, posEq, (hd k).2, hx k (List.mem_cons_self k T)]
    have hframe : ∀ n, n ≠ k →
        (selfStep false a4 f k) n = f n ∧ (selfStep false a4 g k) n = g n := by
      intro n hn
      constructor <;>
        · simp only [selfStep]
          rw [if_neg (by simp)]
          simp [updMod, hn]
    have hX' : ∀ n, (X n ∨ n = k) →
        posEq ((selfStep false a4 f k) n) ((selfStep false a4 g k) n) := by
      intro n hn
      by_cases hnk : n = k
      · subst hnk; exact hwrite
      · rcases hn with hn | hn
        · rw [(hframe n hnk).1, (hframe n hnk).2]; exact hX n hn
        · exact absurd hn hnk
    have hx' : ∀ n ∈ T, ((selfStep false a4 f k) n).x = ((selfStep false a4 g k) n).x := by
      intro n hn
      rw [selfStepH_x, selfStepH_x]
      exact hx n (List.mem_cons_of_mem k hn)
    obtain ⟨c1, c2⟩ :=
      ih (selfStep false a4 f k) (selfStep false a4 g k) (fun n => X n ∨ n = k)
        hd' hX' hx'
    refine ⟨fun n hn => c1 n (Or.inl hn), ?_⟩
    intro n hn
    rcases List.mem_cons.mp hn with hn | hn
    · subst hn; exact c1 n (Or.inr rfl)
    · exact c2 n hn

theorem packB_fields (s : EngineState) :
    (packBStarTree s).vertical = s.vertical ∧
      (packBStarTree s).repToPair = s.repToPair ∧
      (packBStarTree s).selfSyms = s.selfSyms ∧
      (packBStarTree s).reps = s.reps ∧
      (packBStarTree s).moduleNames = s.moduleNames ∧
      (packBStarTree s).tree = s.tree ∧
      (packBStarTree s).axis4 = s.axis4 :=
  ⟨rfl, rfl, rfl, rfl, rfl, rfl, rfl⟩

theorem calc_axis_set (t : EngineState) :
    calculateSymmetryAxisPosition
        { t with axis4 := calculateSymmetryAxisPosition t } =
      calculateSymmetryAxisPosition t := by
  unfold calculateSymmetryAxisPosition
  rcases hp : t.repToPair with _ | ⟨p, L⟩ <;>
    rcases hs : t.selfSyms with _ | ⟨q, M⟩ <;>
    rcases hv : t.vertical with _ | _ <;>
    simp [hp, hs, hv]

theorem update_unfold_nonneg (t : EngineState) (h : ¬t.axis4 < 0) :
    updateSymmetricModulePositions t =
      { t with mods := (selfFold t.vertical t.axis4 t.selfSyms
          (pairsFold t.vertical t.axis4 t.repToPair t.mods)) } := by
  unfold updateSymmetricModulePositions
  rw [if_neg h]

theorem update_unfold_neg (t : EngineState) (h : t.axis4 < 0) :
    updateSymmetricModulePositions t =
      { t with
        axis4 := (calculateSymmetryAxisPosition t),
        mods := (selfFold t.vertical (calculateSymmetryAxisPosition t) t.selfSyms
          (pairsFold t.vertical (calculateSymmetryAxisPosition t) t.repToPair t.mods)) } := by
  unfold updateSymmetricModulePositions
  rw [if_pos h]

theorem pack_unfold (s : EngineState) :
    (pack s).2.mods =
      selfFold s.vertical (calculateSymmetryAxisPosition (packBStarTree s))
        s.selfSyms
        (pairsFold s.vertical (calculateSymmetryAxisPosition (packBStarTree s))
          s.repToPair (packBStarTree s).mods) ∧
      (pack s).2.axis4 = calculateSymmetryAxisPosition (packBStarTree s) ∧
      (pack s).1 = validateSymmetry (pack s).2 := by
  have hshape : (pack s).2 = updateSymmetricModulePositions
      { packBStarTree s with axis4 := calculateSymmetryAxisPosition (packBStarTree s) } := rfl
  have hca : calculateSymmetryAxisPosition
      { packBStarTree s with axis4 := calculateSymmetryAxisPosition (packBStarTree s) } =
        calculateSymmetryAxisPosition (packBStarTree s) := calc_axis_set (packBStarTree s)
  refine ⟨?_, ?_, rfl⟩
  · by_cases h : calculateSymmetryAxisPosition (packBStarTree s) < 0
    · rw [hshape, update_unfold_neg _ h, hca]; rfl
    · rw [hshape, update_unfold_nonneg _ h]; rfl
  · by_cases h : calculateSymmetryAxisPosition (packBStarTree s) < 0
    · rw [hshape, update_unfold_neg _ h, hca]
    · rw [hshape, update_unfold_nonneg _ h]

theorem map_pos_congr (L : List Name) (u t : Name → Module)
    (hpos : ∀ r ∈ L, posEq (u r) (t r)) :
    L.map (fun n => (n, (u n).x, (u n).y)) = L.map (fun n => (n, (t n).x, (t n).y)) := by
  induction L with
  | nil => rfl
  | cons a T ih =>
    have ha := hpos a (List.mem_cons_self a T)
    simp only [List.map_cons]
    rw [ha.1, ha.2, ih (fun r hr => hpos r (List.mem_cons_of_mem a hr))]

theorem compact_congr (t u : EngineState)
    (hreps : u.reps = t.reps) (hv : u.vertical = t.vertical)
    (hd : ∀ n, dimsEq (u.mods n) (t.mods n))
    (hpos : ∀ r ∈ t.reps, posEq (u.mods r) (t.mods r)) :
    (∀ n, dimsEq ((compactPlacement u).mods n) ((compactPlacement t).mods n)) ∧
      (∀ n, posEq (u.mods n) (t.mods n) →
        posEq ((compactPlacement u).mods n) ((compactPlacement t).mods n)) ∧
      (∀ r ∈ t.reps, posEq ((compactPlacement u).mods r) ((compactPlacement t).mods r)) := by
  have hdim_fun : dimOf u.mods = dimOf t.mods := by
    funext n
    have := hd n
    simp [dimOf, this.1, this.2]
  have hpl0 : u.reps.map (fun n => (n, (u.mods n).x, (u.mods n).y)) =
      t.reps.map (fun n => (n, (t.mods n).x, (t.mods n).y)) := by
    rw [hreps]
    exact map_pos_congr t.reps u.mods t.mods hpos
  have hplF : compactCore u.vertical (dimOf u.mods)
        (u.reps.map (fun n => (n, (u.mods n).x, (u.mods n).y))) =
      compactCore t.vertical (dimOf t.mods)
        (t.reps.map (fun n => (n, (t.mods n).x, (t.mods n).y))) := by
    rw [hv, hdim_fun, hpl0]
  have hmodsu : (compactPlacement u).mods =
      (compactCore t.vertical (dimOf t.mods)
          (t.reps.map (fun n => (n, (t.mods n).x, (t.mods n).y)))).foldl
        (fun f p => updMod f p.1 (setPos (f p.1) p.2.1 p.2.2)) u.mods := by
    show (compactCore u.vertical (dimOf u.mods)
          (u.reps.map (fun n => (n, (u.mods n).x, (u.mods n).y)))).foldl
        (fun f p => updMod f p.1 (setPos (f p.1) p.2.1 p.2.2)) u.mods = _
    rw [hplF]
  have hmodst : (compactPlacement t).mods =
      (compactCore t.vertical (dimOf t.mods)
          (t.reps.map (fun n => (n, (t.mods n).x, (t.mods n).y)))).foldl
        (fun f p => updMod f p.1 (setPos (f p.1) p.2.1 p.2.2)) t.mods := rfl
  have hnames : (compactCore t.vertical (dimOf t.mods)
        (t.reps.map (fun n => (n, (t.mods n).x, (t.mods n).y)))).map (fun p => p.1) =
      t.reps := by
    rw [compactCore_names, List.map_map]
    have hcomp : ((fun p : Name × Int × Int => p.1) ∘
        fun n : Name => (n, (t.mods n).x, (t.mods n).y)) = fun n : Name => n := rfl
    rw [hcomp]
    simp
  refine ⟨?_, ?_, ?_⟩
  · intro n
    rw [hmodsu, hmodst]
    have h1 := posFold_dims (compactCore t.vertical (dimOf t.mods)
      (t.reps.map (fun n => (n, (t.mods n).x, (t.mods n).y)))) u.mods n
    have h2 := posFold_dims (compactCore t.vertical (dimOf t.mods)
      (t.reps.map (fun n => (n, (t.mods n).x, (t.mods n).y)))) t.mods n
    exact ⟨h1.1.trans ((hd n).1.trans h2.1.symm), h1.2.trans ((hd n).2.trans h2.2.symm)⟩
  · intro n hn
    rw [hmodsu, hmodst]
    by_cases hmem : n ∈ (compactCore t.vertical (dimOf t.mods)
        (t.reps.map (fun n => (n, (t.mods n).x, (t.mods n).y)))).map (fun p => p.1)
    · exact posFold_pos_eq _ u.mods t.mods n hmem
    · rw [posFold_frame _ u.mods n hmem, posFold_frame _ t.mods n hmem]
      exact hn
  · intro r hr
    rw [hmodsu, hmodst]
    apply posFold_pos_eq
    rw [hnames]
    exact hr

theorem foldl_max_ext {α : Type} (f g : α → Int) :
    ∀ (L : List α), (∀ a ∈ L, f a = g a) → ∀ i : Int,
      L.foldl (fun m x => max m (f x)) i = L.foldl (fun m x => max m (g x)) i := by
  intro L
  induction L with
  | nil => intro _ i; rfl
  | cons a T ih =>
    intro h i
    show T.foldl _ (max i (f a)) = T.foldl _ (max i (g a))
    rw [h a (List.mem_cons_self a T), ih (fun b hb => h b (List.mem_cons_of_mem a hb))]

theorem calc_congr (t u : EngineState)
    (hv : u.vertical = t.vertical) (hrp : u.repToPair = t.repToPair)
    (hss : u.selfSyms = t.selfSyms) (hreps : u.reps = t.reps)
    (hax : t.repToPair = [] → t.selfSyms = [] → u.axis4 = t.axis4)
    (hd : ∀ n, dimsEq (u.mods n) (t.mods n))
    (hposreps : ∀ r ∈ t.reps, posEq (u.mods r) (t.mods r))
    (hpospair : ∀ rp ∈ t.repToPair, posEq (u.mods rp.1) (t.mods rp.1)) :
    calculateSymmetryAxisPosition u = calculateSymmetryAxisPosition t := by
  have hedgeX : ∀ rp ∈ t.repToPair, rightEdge4 (u.mods rp.1) = rightEdge4 (t.mods rp.1) := by
    intro rp hrp2
    have h1 := hpospair rp hrp2
    have h2 := hd rp.1
    simp [rightEdge4, h1.1, h2.1]
  have hedgeY : ∀ rp ∈ t.repToPair, bottomEdge4 (u.mods rp.1) = bottomEdge4 (t.mods rp.1) := by
    intro rp hrp2
    have h1 := hpospair rp hrp2
    have h2 := hd rp.1
    simp [bottomEdge4, h1.2, h2.2]
  have htermX : ∀ rp ∈ t.repToPair, pairAxisTermX4 u.mods rp = pairAxisTermX4 t.mods rp := by
    intro rp hrp2
    have h1 := hpospair rp hrp2
    have h2 := hd rp.1
    have h3 := hd rp.2
    simp [pairAxisTermX4, centerX4, h1.1, h2.1, h3.1]
  have htermY : ∀ rp ∈ t.repToPair, pairAxisTermY4 u.mods rp = pairAxisTermY4 t.mods rp := by
    intro rp hrp2
    have h1 := hpospair rp hrp2
    have h2 := hd rp.1
    have h3 := hd rp.2
    simp [pairAxisTermY4, centerY4, h1.2, h2.2, h3.2]
  have hrepsX : t.reps.map (fun n => (u.mods n).x + (u.mods n).width) =
      t.reps.map (fun n => (t.mods n).x + (t.mods n).width) := by
    apply List.map_congr_left
    intro r hr
    rw [(hposreps r hr).1, (hd r).1]
  have hrepsY : t.reps.map (fun n => (u.mods n).y + (u.mods n).height) =
      t.reps.map (fun n => (t.mods n).y + (t.mods n).height) := by
    apply List.map_congr_left
    intro r hr
    rw [(hposreps r hr).2, (hd r).2]
  have hselfW : ∀ i : Int, t.selfSyms.foldl (fun m n => max m (u.mods n).width) i =
      t.selfSyms.foldl (fun m n => max m (t.mods n).width) i := by
    intro i
    exact foldl_max_ext _ _ t.selfSyms (fun n _ => (hd n).1) i
  have hselfH : ∀ i : Int, t.selfSyms.foldl (fun m n => max m (u.mods n).height) i =
      t.selfSyms.foldl (fun m n => max m (t.mods n).height) i := by
    intro i
    exact foldl_max_ext _ _ t.selfSyms (fun n _ => (hd n).2) i
  unfold calculateSymmetryAxisPosition
  rw [hv, hrp, hss, hreps]
  rcases hvb : t.vertical with _ | _ <;> simp only [Bool.false_eq_true, if_false, if_true]
  · rcases hp : t.repToPair with _ | ⟨p, L⟩
    · rcases hs : t.selfSyms with _ | ⟨q, M⟩
      · exact hax hp hs
      · rw [← hs, hrepsY, hselfH 0, hs]
    · have hmem : ∀ rp ∈ p :: L, rp ∈ t.repToPair := fun rp h => hp ▸ h
      rw [foldl_max_ext (fun rp => bottomEdge4 (u.mods rp.1)) (fun rp => bottomEdge4 (t.mods rp.1))
        (p :: L) (fun rp h => hedgeY rp (hmem rp h)) 0]
      rw [foldl_max_ext (fun rp => pairAxisTermY4 u.mods rp) (fun rp => pairAxisTermY4 t.mods rp)
        (p :: L) (fun rp h => htermY rp (hmem rp h))]
  · rcases hp : t.repToPair with _ | ⟨p, L⟩
    · rcases hs : t.selfSyms with _ | ⟨q, M⟩
      · exact hax hp hs
      · rw [← hs, hrepsX, hselfW 0, hs]
    · have hmem : ∀ rp ∈ p :: L, rp ∈ t.repToPair := fun rp h => hp ▸ h
      rw [foldl_max_ext (fun rp => rightEdge4 (u.mods rp.1)) (fun rp => rightEdge4 (t.mods rp.1))
        (p :: L) (fun rp h => hedgeX rp (hmem rp h)) 0]
      rw [foldl_max_ext (fun rp => pairAxisTermX4 u.mods rp) (fun rp => pairAxisTermX4 t.mods rp)
        (p :: L) (fun rp h => htermX rp (hmem rp h))]

theorem all_congr_mem {α : Type} : ∀ (l : List α) (p q : α → Bool),
    (∀ a ∈ l, p a = q a) → l.all p = l.all q := by
  intro l
  induction l with
  | nil => intro p q _; rfl
  | cons a T ih =>
    intro p q h
    simp only [List.all_cons]
    rw [h a (List.mem_cons_self a T), ih p q (fun b hb => h b (List.mem_cons_of_mem a hb))]

theorem validate_congr (t u : EngineState)
    (h1 : u.moduleNames = t.moduleNames) (h2 : u.repToPair = t.repToPair)
    (h3 : u.selfSyms = t.selfSyms) (h4 : u.vertical = t.vertical)
    (h5 : u.axis4 = t.axis4)
    (hm : ∀ n, posEq (u.mods n) (t.mods n) ∧ dimsEq (u.mods n) (t.mods n)) :
    validateSymmetry u = validateSymmetry t := by
  have hcx : ∀ n, centerX4 (u.mods n) = centerX4 (t.mods n) := by
    intro n
    simp [centerX4, (hm n).1.1, (hm n).2.1]
  have hcy : ∀ n, centerY4 (u.mods n) = centerY4 (t.mods n) := by
    intro n
    simp [centerY4, (hm n).1.2, (hm n).2.2]
  unfold validateSymmetry noNegativeCoords
  rw [h1, h2, h3]
  have e1 : t.moduleNames.all (fun n => !((u.mods n).x < 0 || (u.mods n).y < 0)) =
      t.moduleNames.all (fun n => !((t.mods n).x < 0 || (t.mods n).y < 0)) := by
    apply all_congr_mem
    intro n _
    rw [(hm n).1.1, (hm n).1.2]
  have e2 : t.repToPair.all (pairSymOk u) = t.repToPair.all (pairSymOk t) := by
    apply all_congr_mem
    intro rp _
    simp only [pairSymOk]
    rw [h1, h4, h5, hcx rp.1, hcx rp.2, hcy rp.1, hcy rp.2]
  have e3 : t.selfSyms.all (selfSymOk u) = t.selfSyms.all (selfSymOk t) := by
    apply all_congr_mem
    intro n _
    simp only [selfSymOk]
    rw [h1, h4, h5, hcx n, hcy n]
  rw [e1, e2, e3]

theorem mem_map_fst_append_right {A B : List (Name × Int × Int)} {n : Name}
    (h : n ∈ B.map (fun p => p.1)) : n ∈ (A ++ B).map (fun p => p.1) := by
  rw [List.map_append]
  exact List.mem_append.mpr (Or.inr h)

theorem mem_map_fst_append_left {A B : List (Name × Int × Int)} {n : Name}
    (h : n ∈ A.map (fun p => p.1)) : n ∈ (A ++ B).map (fun p => p.1) := by
  rw [List.map_append]
  exact List.mem_append.mpr (Or.inl h)

theorem bfsRun_coverage (dim : Name → Int × Int) :
    ∀ (fuel : Nat) (q : List (BTree × Int × Int)) (c : Contour),
      (q.map (fun e => e.1.size)).sum ≤ fuel →
      (∀ e ∈ q, e.1 ≠ BTree.nil) →
      ∀ e ∈ q, ∀ n ∈ e.1.childNames,
        n ∈ (bfsRun dim fuel q c).1.map (fun p => p.1) := by
  intro fuel
  induction fuel with
  | zero =>
    intro q c hsum hnn e he n hn
    exfalso
    obtain ⟨t, ex, ey⟩ := e
    cases t with
    | nil => exact (hnn _ he) rfl
    | node nm l r =>
      have hmem : (BTree.node nm l r).size ∈ q.map (fun e => e.1.size) :=
        List.mem_map_of_mem (fun e => e.1.size) he
      have hle : (BTree.node nm l r).size ≤ (q.map (fun e => e.1.size)).sum :=
        List.single_le_sum (fun b _ => Nat.zero_le b) _ hmem
      have hsz : 0 < (BTree.node nm l r).size := by
        show 0 < 1 + l.size + r.size
        omega
      omega
  | succ fuel ih =>
    intro q c hsum hnn e he n hn
    cases q with
    | nil => exact absurd he (List.not_mem_nil e)
    | cons entry rest =>
      obtain ⟨t, nx, ny⟩ := entry
      cases t with
      | nil => exact absurd rfl (hnn _ (List.mem_cons_self _ _))
      | node nm l r =>
        have hsum2 : ((rest.map (fun e => e.1.size)).sum + l.size + r.size) ≤ fuel := by
          have hexp : (((BTree.node nm l r, nx, ny) :: rest).map (fun e => e.1.size)).sum =
              1 + l.size + r.size + (rest.map (fun e => e.1.size)).sum := by
            simp [BTree.size]
          omega
        have hnnrest : ∀ e ∈ rest, e.1 ≠ BTree.nil :=
          fun e he2 => hnn e (List.mem_cons_of_mem _ he2)
        cases l with
        | nil =>
          cases r with
          | nil =>
            simp only [bfsRun, List.append_nil]
            have hsum3 : (rest.map (fun e => e.1.size)).sum ≤ fuel := by
              simp only [BTree.size] at hsum2
              omega
            rcases List.mem_cons.mp he with he2 | he2
            · exfalso
              rw [he2] at hn
              simp [BTree.childNames, BTree.names] at hn
            · simpa using ih rest c hsum3 hnnrest e he2 n hn
          | node rm rl rr =>
            simp only [bfsRun, List.append_nil, List.nil_append]
            set rEntry : BTree × Int × Int := (BTree.node rm rl rr, nx, ny + (dim nm).2)
              with hrE
            have hq2sum : ((rest ++ [rEntry]).map (fun e => e.1.size)).sum ≤ fuel := by
              simp only [BTree.size, hrE, List.map_append, List.map_cons, List.map_nil,
                List.sum_append, List.sum_cons, List.sum_nil] at hsum2 ⊢
              omega
            have hq2nn : ∀ e2 ∈ rest ++ [rEntry], e2.1 ≠ BTree.nil := by
              intro e2 he3
              rcases List.mem_append.mp he3 with h | h
              · exact hnnrest e2 h
              · rw [List.mem_singleton.mp h, hrE]
                simp
            rcases List.mem_cons.mp he with he2 | he2
            · rw [he2] at hn
              simp only [BTree.childNames, BTree.names, List.nil_append] at hn
              rcases List.mem_cons.mp hn with hn2 | hn2
              · apply mem_map_fst_append_left
                simp [hn2]
              · apply mem_map_fst_append_right
                refine ih (rest ++ [rEntry]) _ hq2sum hq2nn rEntry ?_ n ?_
                · exact List.mem_append.mpr (Or.inr (List.mem_singleton.mpr rfl))
                · simpa [hrE, BTree.childNames] using hn2
            · apply mem_map_fst_append_right
              exact ih (rest ++ [rEntry]) _ hq2sum hq2nn e
                (List.mem_append.mpr (Or.inl he2)) n hn
        | node lm ll lr =>
          set lEntry : BTree × Int × Int := (BTree.node lm ll lr,
            nx + (dim nm).1,
            if hasContourOverlap c (nx + (dim nm).1) ny (dim lm).1 (dim lm).2 then
              getContourHeight c (nx + (dim nm).1) else ny) with hlE
          cases r with
          | nil =>
            simp only [bfsRun, List.append_nil]
            have hq2sum : ((rest ++ [lEntry]).map (fun e => e.1.size)).sum ≤ fuel := by
              simp only [BTree.size, hlE, List.map_append, List.map_cons, List.map_nil,
                List.sum_append, List.sum_cons, List.sum_nil] at hsum2 ⊢
              omega
            have hq2nn : ∀ e2 ∈ rest ++ [lEntry], e2.1 ≠ BTree.nil := by
              intro e2 he3
              rcases List.mem_append.mp he3 with h | h
              · exact hnnrest e2 h
              · rw [List.mem_singleton.mp h, hlE]
                simp
            rcases List.mem_cons.mp he with he2 | he2
            · rw [he2] at hn
              simp only [BTree.childNames, BTree.names, List.append_nil] at hn
              rcases List.mem_cons.mp hn with hn2 | hn2
              · apply mem_map_fst_append_left
                simp [hn2]
              · apply mem_map_fst_append_right
                refine ih (rest ++ [lEntry]) _ hq2sum hq2nn lEntry ?_ n ?_
                · exact List.mem_append.mpr (Or.inr (List.mem_singleton.mpr rfl))
                · simpa [hlE, BTree.childNames] using hn2
            · apply mem_map_fst_append_right
              exact ih (rest ++ [lEntry]) _ hq2sum hq2nn e
                (List.mem_append.mpr (Or.inl he2)) n hn
          | node rm rl rr =>
            simp only [bfsRun]
            set rEntry : BTree × Int × Int := (BTree.node rm rl rr, nx, ny + (dim nm).2)
              with hrE
            have hq2sum : ((rest ++ [lEntry] ++ [rEntry]).map (fun e => e.1.size)).sum ≤
                fuel := by
              simp only [BTree.size, hlE, hrE, List.map_append, List.map_cons, List.map_nil,
                List.sum_append, List.sum_cons, List.sum_nil] at hsum2 ⊢
              omega
            have hq2nn : ∀ e2 ∈ rest ++ [lEntry] ++ [rEntry], e2.1 ≠ BTree.nil := by
              intro e2 he3
              rcases List.mem_append.mp he3 with h | h
              · rcases List.mem_append.mp h with h2 | h2
                · exact hnnrest e2 h2
                · rw [List.mem_singleton.mp h2, hlE]
                  simp
              · rw [List.mem_singleton.mp h, hrE]
                simp
            rcases List.mem_cons.mp he with he2 | he2
            · rw [he2] at hn
              simp only [BTree.childNames, BTree.names] at hn
              rcases List.mem_append.mp hn with hn2 | hn2
              · rcases List.mem_cons.mp hn2 with hn3 | hn3
                · apply mem_map_fst_append_left
                  apply mem_map_fst_append_left
                  simp [hn3]
                · apply mem_map_fst_append_right
                  refine ih (rest ++ [lEntry] ++ [rEntry]) _ hq2sum hq2nn lEntry ?_ n ?_
                  · exact List.mem_append.mpr (Or.inl
                      (List.mem_append.mpr (Or.inr (List.mem_singleton.mpr rfl))))
                  · simpa [hlE, BTree.childNames] using hn3
              · rcases List.mem_cons.mp hn2 with hn3 | hn3
                · apply mem_map_fst_append_left
                  apply mem_map_fst_append_right
                  simp [hn3]
                · apply mem_map_fst_append_right
                  refine ih (rest ++ [lEntry] ++ [rEntry]) _ hq2sum hq2nn rEntry ?_ n ?_
                  · exact List.mem_append.mpr (Or.inr (List.mem_singleton.mpr rfl))
                  · simpa [hrE, BTree.childNames] using hn3
            · apply mem_map_fst_append_right
              exact ih (rest ++ [lEntry] ++ [rEntry]) _ hq2sum hq2nn e
                (List.mem_append.mpr (Or.inl (List.mem_append.mpr (Or.inl he2)))) n hn

theorem packPlacements_coverage (dim : Name → Int × Int) (t : BTree) :
    ∀ n ∈ t.names, n ∈ (packPlacements dim t).1.map (fun p => p.1) := by
  intro n hn
  cases t with
  | nil => exact absurd hn (List.not_mem_nil n)
  | node nm l r =>
    simp only [packPlacements, List.map_cons, List.mem_cons]
    rcases List.mem_cons.mp hn with hn2 | hn2
    · exact Or.inl hn2
    · right
      have hcn : n ∈ (BTree.node nm l r).childNames := by
        simpa [BTree.childNames] using hn2
      exact bfsRun_coverage dim (BTree.node nm l r).size [(BTree.node nm l r, 0, 0)] _
        (by simp) (by simp) (BTree.node nm l r, 0, 0) (List.mem_singleton.mpr rfl) n hcn

/-! ## Amended C9: assembling the two runs of `pack`

The lemmas below lift the stage congruences to `pack` itself: the dimensions
survive a rotation-free run, the fields other than `mods`/`axis4` are
untouched, and a module that no stage writes keeps its position. -/

theorem selfFold_frame2 (v : Bool) (a4 : Int) (L : List Name) (f : Name → Module)
    (n : Name) (h : n ∉ L) : selfFold v a4 L f n = f n :=
  selfFold_frame v a4 L f n h

theorem apply_dims (mods : Name → Module) (ps : List (Name × Int × Int)) (n : Name) :
    dimsEq (applyPlacements mods ps n) (mods n) :=
  posFold_dims ps mods n

theorem apply_frame (mods : Name → Module) (ps : List (Name × Int × Int)) (n : Name)
    (h : n ∉ ps.map (fun p => p.1)) : applyPlacements mods ps n = mods n :=
  posFold_frame ps mods n h

theorem compact_dims (t : EngineState) (n : Name) :
    dimsEq ((compactPlacement t).mods n) (t.mods n) :=
  posFold_dims _ _ n

theorem packB_mods (s : EngineState) :
    (packBStarTree s).mods =
      (compactPlacement { s with
        mods := applyPlacements s.mods (packPlacements (dimOf s.mods) s.tree).1 }).mods := rfl

theorem pack_dims (s : EngineState)
    (hrot : ∀ rp ∈ s.repToPair, rotationTriggered s.mods rp = false) :
    ∀ n, dimsEq ((pack s).2.mods n) (s.mods n) := by
  intro n
  have hd0 : ∀ k, dimsEq ((packBStarTree s).mods k) (s.mods k) := by
    intro k
    have h1 : dimsEq ((packBStarTree s).mods k)
        (applyPlacements s.mods (packPlacements (dimOf s.mods) s.tree).1 k) := by
      rw [packB_mods]
      exact compact_dims _ k
    have h2 := apply_dims s.mods (packPlacements (dimOf s.mods) s.tree).1 k
    exact ⟨h1.1.trans h2.1, h1.2.trans h2.2⟩
  have h2 := pairsFold_dims_ref s.vertical (calculateSymmetryAxisPosition (packBStarTree s))
    s.repToPair (packBStarTree s).mods s.mods hd0 hrot n
  have h3 := selfFold_dims s.vertical (calculateSymmetryAxisPosition (packBStarTree s))
    s.selfSyms (pairsFold s.vertical (calculateSymmetryAxisPosition (packBStarTree s))
      s.repToPair (packBStarTree s).mods) n
  rw [(pack_unfold s).1]
  exact ⟨h3.1.trans h2.1, h3.2.trans h2.2⟩

theorem pack_fields (s : EngineState) :
    (pack s).2.moduleNames = s.moduleNames ∧ (pack s).2.reps = s.reps ∧
      (pack s).2.repToPair = s.repToPair ∧ (pack s).2.selfSyms = s.selfSyms ∧
      (pack s).2.vertical = s.vertical ∧ (pack s).2.tree = s.tree := by
  have hshape : (pack s).2 = updateSymmetricModulePositions
      { packBStarTree s with axis4 := calculateSymmetryAxisPosition (packBStarTree s) } := rfl
  by_cases h : ({ packBStarTree s with
      axis4 := calculateSymmetryAxisPosition (packBStarTree s) } : EngineState).axis4 < 0
  · rw [hshape, update_unfold_neg _ h]
    exact ⟨rfl, rfl, rfl, rfl, rfl, rfl⟩
  · rw [hshape, update_unfold_nonneg _ h]
    exact ⟨rfl, rfl, rfl, rfl, rfl, rfl⟩

theorem calc_empty (t : EngineState) (hp : t.repToPair = []) (hs : t.selfSyms = []) :
    calculateSymmetryAxisPosition t = t.axis4 := by
  unfold calculateSymmetryAxisPosition
  rcases hv : t.vertical with _ | _ <;> simp [hp, hs]

theorem pack_y_frameV (s : EngineState) (n : Name) (hv : s.vertical = true)
    (h1 : n ∉ (packPlacements (dimOf s.mods) s.tree).1.map (fun p => p.1))
    (h2 : n ∉ s.reps) (h3 : n ∉ s.repToPair.map (fun p => p.2)) :
    (((pack s).2).mods n).y = (s.mods n).y := by
  have ha := (pack_unfold s).1
  rw [hv] at ha
  rw [ha, selfFoldV_y, pairsFold_frame true (calculateSymmetryAxisPosition (packBStarTree s))
    s.repToPair (packBStarTree s).mods n h3, packB_mods s,
    compact_frame { s with
      mods := applyPlacements s.mods (packPlacements (dimOf s.mods) s.tree).1 } n h2]
  exact congrArg Module.y (apply_frame s.mods _ n h1)

theorem pack_x_frameH (s : EngineState) (n : Name) (hv : s.vertical = false)
    (h1 : n ∉ (packPlacements (dimOf s.mods) s.tree).1.map (fun p => p.1))
    (h2 : n ∉ s.reps) (h3 : n ∉ s.repToPair.map (fun p => p.2)) :
    (((pack s).2).mods n).x = (s.mods n).x := by
  have ha := (pack_unfold s).1
  rw [hv] at ha
  rw [ha, selfFoldH_x, pairsFold_frame false (calculateSymmetryAxisPosition (packBStarTree s))
    s.repToPair (packBStarTree s).mods n h3, packB_mods s,
    compact_frame { s with
      mods := applyPlacements s.mods (packPlacements (dimOf s.mods) s.tree).1 } n h2]
  exact congrArg Module.x (apply_frame s.mods _ n h1)

theorem selfFold_congr_both (v : Bool) (a4 : Int) (L : List Name) (f g : Name → Module)
    (X : Name → Prop)
    (hd : ∀ n, dimsEq (f n) (g n))
    (hX : ∀ n, X n → posEq (f n) (g n))
    (hcoord : ∀ n ∈ L, (if v then (f n).y = (g n).y else (f n).x = (g n).x)) :
    (∀ n, X n → posEq ((selfFold v a4 L f) n) ((selfFold v a4 L g) n)) ∧
      (∀ n ∈ L, posEq ((selfFold v a4 L f) n) ((selfFold v a4 L g) n)) := by
  rcases v with _ | _
  · exact selfFoldH_congr a4 L f g X hd hX (by simpa using hcoord)
  · exact selfFoldV_congr a4 L f g X hd hX (by simpa using hcoord)

/-- C9 (amended): if the first `pack` triggers no partner rotation and the
B*-tree contains every representative — in particular every symmetry pair's
representative — then `pack` is idempotent: a second call returns the same
boolean and leaves every module's position unchanged. -/
theorem C9_amended_pack_idempotent (s : EngineState)
    (hrot : ∀ rp ∈ s.repToPair, rotationTriggered s.mods rp = false)
    (hreps : ∀ r ∈ s.reps, r ∈ s.tree.names)
    (hpairreps : ∀ rp ∈ s.repToPair, rp.1 ∈ s.tree.names) :
    (pack ((pack s).2)).1 = (pack s).1 ∧
      ∀ n, posEq ((pack ((pack s).2)).2.mods n) (((pack s).2).mods n) := by
  obtain ⟨hmods1, haxis1, hbool1⟩ := pack_unfold s
  obtain ⟨hFmn, hFreps, hFpp, hFss, hFv, hFtree⟩ := pack_fields s
  have hdimsF : ∀ k, dimsEq (((pack s).2).mods k) (s.mods k) := pack_dims s hrot
  have hdim_fun : dimOf ((pack s).2).mods = dimOf s.mods := by
    funext k
    simp [dimOf, (hdimsF k).1, (hdimsF k).2]
  have hP2 : packPlacements (dimOf ((pack s).2).mods) ((pack s).2).tree =
      packPlacements (dimOf s.mods) s.tree := by
    rw [hdim_fun, hFtree]
  have hmods2p : (packBStarTree ((pack s).2)).mods =
      (compactPlacement { (pack s).2 with
        mods := applyPlacements ((pack s).2).mods
          (packPlacements (dimOf s.mods) s.tree).1 }).mods := by
    rw [packB_mods ((pack s).2), hP2]
  have hm2eq : (packBStarTree s).mods =
      (compactPlacement { s with
        mods := applyPlacements s.mods (packPlacements (dimOf s.mods) s.tree).1 }).mods :=
    packB_mods s
  have happly_dims : ∀ k, dimsEq
      (applyPlacements ((pack s).2).mods (packPlacements (dimOf s.mods) s.tree).1 k)
      (applyPlacements s.mods (packPlacements (dimOf s.mods) s.tree).1 k) := by
    intro k
    have h1 := apply_dims ((pack s).2).mods (packPlacements (dimOf s.mods) s.tree).1 k
    have h2 := apply_dims s.mods (packPlacements (dimOf s.mods) s.tree).1 k
    exact ⟨h1.1.trans ((hdimsF k).1.trans h2.1.symm),
      h1.2.trans ((hdimsF k).2.trans h2.2.symm)⟩
  have happly_pos : ∀ k ∈ (packPlacements (dimOf s.mods) s.tree).1.map (fun p => p.1),
      posEq (applyPlacements ((pack s).2).mods (packPlacements (dimOf s.mods) s.tree).1 k)
        (applyPlacements s.mods (packPlacements (dimOf s.mods) s.tree).1 k) :=
    fun k hk => posFold_pos_eq _ _ _ k hk
  have hcov : ∀ r, r ∈ s.tree.names →
      r ∈ (packPlacements (dimOf s.mods) s.tree).1.map (fun p => p.1) :=
    fun r hr => packPlacements_coverage (dimOf s.mods) s.tree r hr
  obtain ⟨hcd, hcpres, hcreps⟩ := compact_congr
    { s with mods := applyPlacements s.mods (packPlacements (dimOf s.mods) s.tree).1 }
    { (pack s).2 with
      mods := applyPlacements ((pack s).2).mods (packPlacements (dimOf s.mods) s.tree).1 }
    hFreps hFv happly_dims
    (fun r hr => happly_pos r (hcov r (hreps r hr)))
  have hX_dims : ∀ k, dimsEq ((packBStarTree ((pack s).2)).mods k)
      ((packBStarTree s).mods k) := by
    intro k
    rw [hmods2p, hm2eq]
    exact hcd k
  have hX_names : ∀ k ∈ (packPlacements (dimOf s.mods) s.tree).1.map (fun p => p.1),
      posEq ((packBStarTree ((pack s).2)).mods k) ((packBStarTree s).mods k) := by
    intro k hk
    rw [hmods2p, hm2eq]
    exact hcpres k (happly_pos k hk)
  have hX_reps : ∀ r ∈ s.reps,
      posEq ((packBStarTree ((pack s).2)).mods r) ((packBStarTree s).mods r) := by
    intro r hr
    rw [hmods2p, hm2eq]
    exact hcreps r hr
  have haxe : calculateSymmetryAxisPosition (packBStarTree ((pack s).2)) =
      calculateSymmetryAxisPosition (packBStarTree s) := by
    apply calc_congr
    · rw [(packB_fields ((pack s).2)).1, (packB_fields s).1, hFv]
    · rw [(packB_fields ((pack s).2)).2.1, (packB_fields s).2.1, hFpp]
    · rw [(packB_fields ((pack s).2)).2.2.1, (packB_fields s).2.2.1, hFss]
    · rw [(packB_fields ((pack s).2)).2.2.2.1, (packB_fields s).2.2.2.1, hFreps]
    · intro hp hs2
      have h1 : (packBStarTree ((pack s).2)).axis4 = ((pack s).2).axis4 :=
        (packB_fields ((pack s).2)).2.2.2.2.2.2
      have h2 : (packBStarTree s).axis4 = s.axis4 := (packB_fields s).2.2.2.2.2.2
      rw [h1, h2, haxis1, calc_empty (packBStarTree s) hp hs2, h2]
    · exact hX_dims
    · intro r hr
      exact hX_reps r hr
    · intro rp hrp3
      exact hX_names rp.1 (hcov rp.1 (hpairreps rp hrp3))
  obtain ⟨hmods2u, haxis2u, hbool2u⟩ := pack_unfold ((pack s).2)
  rw [hFv, hFpp, hFss, haxe] at hmods2u
  obtain ⟨hpfd, hpfX, hpfpartners⟩ := pairsFold_congr s.vertical
    (calculateSymmetryAxisPosition (packBStarTree s)) s.repToPair
    (packBStarTree ((pack s).2)).mods (packBStarTree s).mods
    (fun k => posEq ((packBStarTree ((pack s).2)).mods k) ((packBStarTree s).mods k))
    hX_dims (fun k hk => hk)
    (fun rp hrp3 => hX_names rp.1 (hcov rp.1 (hpairreps rp hrp3)))
  have hPF_pos : ∀ k, (k ∈ (packPlacements (dimOf s.mods) s.tree).1.map (fun p => p.1) ∨
      k ∈ s.repToPair.map (fun p => p.2)) →
      posEq ((pairsFold s.vertical (calculateSymmetryAxisPosition (packBStarTree s))
          s.repToPair (packBStarTree ((pack s).2)).mods) k)
        ((pairsFold s.vertical (calculateSymmetryAxisPosition (packBStarTree s))
          s.repToPair (packBStarTree s).mods) k) := by
    intro k hk
    rcases hk with hk | hk
    · exact hpfX k (hX_names k hk)
    · obtain ⟨rp, hrp3, hrpk⟩ := List.mem_map.mp hk
      exact hrpk ▸ hpfpartners rp hrp3
  have hchainF : ∀ k, k ∉ (packPlacements (dimOf s.mods) s.tree).1.map (fun p => p.1) →
      k ∉ s.repToPair.map (fun p => p.2) →
      (pairsFold s.vertical (calculateSymmetryAxisPosition (packBStarTree s)) s.repToPair
          (packBStarTree ((pack s).2)).mods) k = ((pack s).2).mods k ∧
        (pairsFold s.vertical (calculateSymmetryAxisPosition (packBStarTree s)) s.repToPair
          (packBStarTree s).mods) k = s.mods k := by
    intro k hk1 hk2
    have hkreps : k ∉ s.reps := fun hkr => hk1 (hcov k (hreps k hkr))
    have hkrepsF : k ∉ ((pack s).2).reps := by
      rw [hFreps]
      exact hkreps
    constructor
    · rw [pairsFold_frame s.vertical (calculateSymmetryAxisPosition (packBStarTree s))
        s.repToPair (packBStarTree ((pack s).2)).mods k hk2, hmods2p,
        compact_frame { (pack s).2 with
          mods := applyPlacements ((pack s).2).mods
            (packPlacements (dimOf s.mods) s.tree).1 } k hkrepsF]
      exact apply_frame ((pack s).2).mods _ k hk1
    · rw [pairsFold_frame s.vertical (calculateSymmetryAxisPosition (packBStarTree s))
        s.repToPair (packBStarTree s).mods k hk2, hm2eq,
        compact_frame { s with
          mods := applyPlacements s.mods
            (packPlacements (dimOf s.mods) s.tree).1 } k hkreps]
      exact apply_frame s.mods _ k hk1
  have hcoord : ∀ k ∈ s.selfSyms,
      (if s.vertical then
        ((pairsFold s.vertical (calculateSymmetryAxisPosition (packBStarTree s))
            s.repToPair (packBStarTree ((pack s).2)).mods) k).y =
          ((pairsFold s.vertical (calculateSymmetryAxisPosition (packBStarTree s))
            s.repToPair (packBStarTree s).mods) k).y
      else
        ((pairsFold s.vertical (calculateSymmetryAxisPosition (packBStarTree s))
            s.repToPair (packBStarTree ((pack s).2)).mods) k).x =
          ((pairsFold s.vertical (calculateSymmetryAxisPosition (packBStarTree s))
            s.repToPair (packBStarTree s).mods) k).x) := by
    intro k hk
    by_cases hmem : k ∈ (packPlacements (dimOf s.mods) s.tree).1.map (fun p => p.1) ∨
        k ∈ s.repToPair.map (fun p => p.2)
    · have hpe := hPF_pos k hmem
      split
      · exact hpe.2
      · exact hpe.1
    · push_neg at hmem
      obtain ⟨hc1, hc2⟩ := hchainF k hmem.1 hmem.2
      rw [hc1, hc2]
      have hkreps : k ∉ s.reps := fun hkr => hmem.1 (hcov k (hreps k hkr))
      rcases hv : s.vertical with _ | _ <;>
        simp only [Bool.false_eq_true, if_false, if_true]
      · exact pack_x_frameH s k hv hmem.1 hkreps hmem.2
      · exact pack_y_frameV s k hv hmem.1 hkreps hmem.2
  obtain ⟨hsfX, hsfSS⟩ := selfFold_congr_both s.vertical
    (calculateSymmetryAxisPosition (packBStarTree s)) s.selfSyms
    (pairsFold s.vertical (calculateSymmetryAxisPosition (packBStarTree s))
      s.repToPair (packBStarTree ((pack s).2)).mods)
    (pairsFold s.vertical (calculateSymmetryAxisPosition (packBStarTree s))
      s.repToPair (packBStarTree s).mods)
    (fun k => k ∈ (packPlacements (dimOf s.mods) s.tree).1.map (fun p => p.1) ∨
      k ∈ s.repToPair.map (fun p => p.2))
    hpfd hPF_pos hcoord
  have hfinal : ∀ n, posEq ((pack ((pack s).2)).2.mods n) (((pack s).2).mods n) := by
    intro n
    rw [hmods2u, hmods1]
    by_cases hn1 : n ∈ (packPlacements (dimOf s.mods) s.tree).1.map (fun p => p.1) ∨
        n ∈ s.repToPair.map (fun p => p.2)
    · exact hsfX n hn1
    · by_cases hn2 : n ∈ s.selfSyms
      · exact hsfSS n hn2
      · push_neg at hn1
        rw [selfFold_frame2 _ _ _ _ n hn2, selfFold_frame2 _ _ _ _ n hn2]
        obtain ⟨hc1, hc2⟩ := hchainF n hn1.1 hn1.2
        have hc3 : ((pack s).2).mods n =
            pairsFold s.vertical (calculateSymmetryAxisPosition (packBStarTree s))
              s.repToPair (packBStarTree s).mods n := by
          rw [hmods1, selfFold_frame2 _ _ _ _ n hn2]
        rw [hc1, hc3]
        exact ⟨rfl, rfl⟩
  have hrotF : ∀ rp ∈ ((pack s).2).repToPair,
      rotationTriggered ((pack s).2).mods rp = false := by
    intro rp hrp3
    rw [rotationTriggered_congr ((pack s).2).mods s.mods rp (hdimsF rp.1) (hdimsF rp.2)]
    apply hrot
    rw [← hFpp]
    exact hrp3
  have hdims2 : ∀ n, dimsEq ((pack ((pack s).2)).2.mods n) (((pack s).2).mods n) :=
    pack_dims ((pack s).2) hrotF
  have h5 : (pack ((pack s).2)).2.axis4 = ((pack s).2).axis4 := by
    rw [haxis2u, haxe, ← haxis1]
  obtain ⟨hGmn, hGreps, hGpp, hGss, hGv, hGtree⟩ := pack_fields ((pack s).2)
  have hbool : (pack ((pack s).2)).1 = (pack s).1 := by
    rw [hbool2u, hbool1]
    exact validate_congr ((pack s).2) ((pack ((pack s).2)).2)
      hGmn hGpp hGss hGv h5 (fun n => ⟨hfinal n, hdims2 n⟩)
  exact ⟨hbool, hfinal⟩

theorem C9_amended_pack_idempotent_witness :
    (∀ rp ∈ c1State.repToPair, rotationTriggered c1State.mods rp = false) ∧
      (∀ r ∈ c1State.reps, r ∈ c1State.tree.names) ∧
      (∀ rp ∈ c1State.repToPair, rp.1 ∈ c1State.tree.names) ∧
      (pack ((pack c1State).2)).1 = (pack c1State).1 ∧
      posEq ((pack ((pack c1State).2)).2.mods "s1") (((pack c1State).2).mods "s1") := by
  refine ⟨by decide, by decide, by decide, ?_, ?_⟩
  · exact (C9_amended_pack_idempotent c1State (by decide) (by decide) (by decide)).1
  · exact (C9_amended_pack_idempotent c1State (by decide) (by decide) (by decide)).2 "s1"

theorem C1_amended_pack_true_validator_witness :
    (pack c1State).1 = true ∧
      ((∀ n ∈ (pack c1State).2.moduleNames,
          0 ≤ ((pack c1State).2.mods n).x ∧ 0 ≤ ((pack c1State).2.mods n).y) ∧
        (∀ rp ∈ (pack c1State).2.repToPair,
          rp.1 ∈ (pack c1State).2.moduleNames → rp.2 ∈ (pack c1State).2.moduleNames →
            if (pack c1State).2.vertical then
              |2 * (pack c1State).2.axis4 -
                  (centerX4 ((pack c1State).2.mods rp.1) +
                    centerX4 ((pack c1State).2.mods rp.2))| ≤ 4 ∧
                |centerY4 ((pack c1State).2.mods rp.1) -
                  centerY4 ((pack c1State).2.mods rp.2)| ≤ 4
            else
              |2 * (pack c1State).2.axis4 -
                  (centerY4 ((pack c1State).2.mods rp.1) +
                    centerY4 ((pack c1State).2.mods rp.2))| ≤ 4 ∧
                |centerX4 ((pack c1State).2.mods rp.1) -
                  centerX4 ((pack c1State).2.mods rp.2)| ≤ 4) ∧
        ∀ n ∈ (pack c1State).2.selfSyms, n ∈ (pack c1State).2.moduleNames →
          if (pack c1State).2.vertical then
            |centerX4 ((pack c1State).2.mods n) - (pack c1State).2.axis4| ≤ 4
          else
            |centerY4 ((pack c1State).2.mods n) - (pack c1State).2.axis4| ≤ 4) :=
  ⟨by decide, C1_amended_pack_true_validator c1State (by decide)⟩

end ASF
